import Mathlib

/-!
Verification development for the `configmanager` repository
(`src/configmanager/config_manager.py`).

The in-memory configuration tree of the Python module is a `dict` whose
values are scalars (strings, numbers, booleans, `None`) or nested `dict`s.
We embed it as an association list that keeps Python's `dict` semantics:
keys are unique in any dict built by the program, insertion order is
preserved, assigning to an existing key replaces its value in place, and
assigning a fresh key appends it at the end.

Python exceptions that the source can raise and does not catch are embedded
as `none` / explicit error values.  Python's `str.lower` / `str.strip` /
`str.split('.')` are embedded as character-list functions with the same
behaviour on the ASCII strings the program manipulates.
-/

namespace CfgMgr

/-- Scalar-or-mapping values stored in a configuration tree.  `vnull` is
Python's `None`. -/
inductive Value where
  | vstr  : String → Value
  | vint  : Int → Value
  | vbool : Bool → Value
  | vnull : Value
  | vdict : List (String × Value) → Value

/-- Tests whether a value is Python's `None` (the module compares values
against `None` with `is None`). -/
def Value.isNull : Value → Bool
  | .vnull => true
  | _ => false

/-- A configuration tree level: a Python dict from string keys to values. -/
abbrev Dict := List (String × Value)

/-- Embedding of Python `str.lower` (ASCII case folding, which is all the
module's keys use). -/
def strLower (s : String) : String := ⟨s.data.map Char.toLower⟩

/-- Embedding of Python `str.strip` with no arguments (drop surrounding
whitespace). -/
def strTrim (s : String) : String :=
  ⟨((s.data.dropWhile Char.isWhitespace).reverse.dropWhile Char.isWhitespace).reverse⟩

/-- Helper for `splitDot`: accumulates the current chunk (reversed). -/
def splitDotAux : List Char → List Char → List String
  | [], acc => [⟨acc.reverse⟩]
  | c :: cs, acc =>
      if c = '.' then ⟨acc.reverse⟩ :: splitDotAux cs []
      else splitDotAux cs (c :: acc)

/-- Embedding of Python `key.split('.')`; always returns a non-empty list. -/
def splitDot (s : String) : List String := splitDotAux s.data []

/-- Python `d[k]` read / `k in d` membership: first exactly matching entry. -/
def dictGet (d : Dict) (k : String) : Option Value :=
  match d.find? (fun p => p.1 = k) with
  | some p => some p.2
  | none => none

/-- Python `d[k] = v`: replace the value of an existing key in place,
otherwise append the new entry at the end (dict insertion order). -/
def dictSet (d : Dict) (k : String) (v : Value) : Dict :=
  if d.any (fun p => p.1 = k) then
    d.map (fun p => if p.1 = k then (p.1, v) else p)
  else
    d ++ [(k, v)]

/-- Python `del d[k]` (for the unique-keys dicts the program builds). -/
def dictErase (d : Dict) (k : String) : Dict :=
  d.filter (fun p => ¬ p.1 = k)

/-- The merge's local `key_exists_case_insensitive(target_dict, key)`
(config_manager.py lines 162-165); the caller guarantees `target_dict` is a
dict, otherwise the Python helper raises (modelled at the call sites). -/
def keyExistsCI (d : Dict) (k : String) : Bool :=
  d.any (fun p => strLower p.1 = strLower k)

/-- First key of `d` whose lower-casing matches that of `k`; mirrors the
`for existing_key in merged.keys(): ... break` scan at lines 185-188. -/
def findKeyCI (d : Dict) (k : String) : Option String :=
  match d.find? (fun p => strLower p.1 = strLower k) with
  | some p => some p.1
  | none => none

/-- The `force_add=True` branch of `_merge_defaults_with_existing`
(lines 167-171).  Because that branch is tested first, a recursive call
(which always passes `force_add=True`) never recurses again: it just adds
each default whose key has no case-insensitive match, lower-cased, value
taken wholesale. -/
def mergeForceLoop (merged : Dict) (defaults : Dict) : Dict :=
  match defaults with
  | [] => merged
  | (key, value) :: rest =>
      mergeForceLoop
        (if keyExistsCI merged key then merged
         else dictSet merged (strLower key) value)
        rest

/-- One iteration of the `force_add=False` loop body of
`_merge_defaults_with_existing` (lines 172-189).  `none` models the
`AttributeError` Python raises when `merged['general']` or the matched
section value is not a dict. -/
def mergeTopEntry (merged : Dict) (key : String) (value : Value) : Option Dict :=
  match value with
  | .vdict sub =>
      -- `isinstance(value, dict)`: the key names a section (lines 178-189)
      let merged1 :=
        if keyExistsCI merged key then merged
        else dictSet merged (strLower key) (.vdict [])
      let actual := (findKeyCI merged1 key).getD (strLower key)
      match dictGet merged1 actual with
      | some (.vdict s) =>
          some (dictSet merged1 actual (.vdict (mergeForceLoop s sub)))
      | _ => none
  | _ =>
      -- non-dict values go to the 'general' section (lines 172-177);
      -- note the `'general' not in merged` test is an exact-key test
      let merged1 :=
        if (dictGet merged "general").isSome then merged
        else dictSet merged "general" (.vdict [])
      match dictGet merged1 "general" with
      | some (.vdict g) =>
          some (if keyExistsCI g key then merged1
                else dictSet merged1 "general" (.vdict (dictSet g (strLower key) value)))
      | _ => none

/-- The `force_add=False` loop of `_merge_defaults_with_existing` over the
entries of `defaults`. -/
def mergeTopLoop (merged : Dict) (defaults : Dict) : Option Dict :=
  match defaults with
  | [] => some merged
  | (key, value) :: rest =>
      match mergeTopEntry merged key value with
      | some m => mergeTopLoop m rest
      | none => none

/-- `_merge_defaults_with_existing(existing_data, defaults, force_add)`
(lines 146-190).  The Python function is recursive, but its recursive calls
always pass `force_add=True` and the `force_add` branch of the loop body is
taken first, so a forced call never recurses: it is exactly
`mergeForceLoop`.  `none` models an uncaught `AttributeError`. -/
def merge_defaults_with_existing (existing_data defaults : Dict) (force_add : Bool) :
    Option Dict :=
  if force_add then some (mergeForceLoop existing_data defaults)
  else mergeTopLoop existing_data defaults

/-- The two file formats the manager understands (`_file_type` is the
string `'json'` or `'cfg'`). -/
inductive FileType where
  | json : FileType
  | cfg  : FileType
deriving DecidableEq, Repr

/-- The mutable attributes of the singleton `ConfigManager` instance.
`config_data` is kept as a `Dict` because every tree the module itself
builds or persists is a mapping at top level. -/
structure Store where
  config_data : Dict
  config_file_path : Option String
  file_type : Option FileType
  auto_save : Bool

/-- The parsed content of the files on disk, abstracting the JSON / INI
codecs (external collaborators): a path is mapped to the tree its parse
would produce.  Operations only read it; the bytes written back to disk
are outside the modelled state. -/
abbrev FS := List (String × Dict)

/-- Looks a path up on the abstract disk. -/
def fsGet (fs : FS) (p : String) : Option Dict :=
  match fs.find? (fun q => q.1 = p) with
  | some q => some q.2
  | none => none

/-- Embedding of Python `s.split(sep)` for a one-character separator
(helper for path handling). -/
def splitCharAux (sep : Char) : List Char → List Char → List String
  | [], acc => [⟨acc.reverse⟩]
  | c :: cs, acc =>
      if c = sep then ⟨acc.reverse⟩ :: splitCharAux sep cs []
      else splitCharAux sep cs (c :: acc)

/-- Final path component, as `pathlib` takes the name of a path. -/
def pathName (p : String) : String := (splitCharAux '/' p.data []).getLastD ""

/-- Embedding of `pathlib.Path(p).suffix`: the part of the name from its
last dot, provided that dot is neither the first nor the last character. -/
def pathSuffix (p : String) : String :=
  let cs := (pathName p).data
  match cs.reverse.findIdx? (fun c => c = '.') with
  | some k => if k ≠ 0 ∧ k + 1 < cs.length then ⟨cs.drop (cs.length - 1 - k)⟩ else ""
  | none => ""

/-- The extension dispatch shared by `load_config`, `create_config` and
`create_or_load_config`: `.json` → JSON, `.cfg`/`.ini` → CFG, anything
else is unsupported. -/
def fileTypeOfExt (ext : String) : Option FileType :=
  if ext = ".json" then some FileType.json
  else if ext = ".cfg" ∨ ext = ".ini" then some FileType.cfg
  else none

/-- Format detected from a path (`file_path.suffix.lower()` then the
if/elif chain). -/
def formatOfPath (p : String) : Option FileType :=
  fileTypeOfExt (strLower (pathSuffix p))

/-- Python exceptions the module can raise to its caller. -/
inductive PyErr where
  | fileNotFound      : PyErr  -- FileNotFoundError in load_config
  | fileExists        : PyErr  -- FileExistsError in create_config
  | valueUnsupported  : PyErr  -- ValueError: unsupported file type
  | valueNoSection    : PyErr  -- ValueError: section required for CFG
  | valueNoPath       : PyErr  -- ValueError: no configuration file path set
  | typeErr           : PyErr  -- TypeError escaping set/delete
  | attrErr           : PyErr  -- AttributeError escaping merge or has
  | conversion        : PyErr  -- ValueError from the typed-get conversion
deriving DecidableEq, Repr

/-- `_save_config_internal` (lines 266-274): raises when no path is set;
the actual serialization only touches the disk, which is outside the
modelled state. -/
def save_config_internal (st : Store) : Option PyErr :=
  if st.config_file_path.isSome then none else some PyErr.valueNoPath

/-- `load_config(file_path, auto_save)` (lines 75-102).  The result pairs
the post-call state with the exception raised, if any: Python mutates
`self` in place, so an error exit can still leave fields changed. -/
def load_config (fs : FS) (st : Store) (file_path : String) (auto_save : Bool) :
    Store × Option PyErr :=
  match fsGet fs file_path with
  | none => (st, some PyErr.fileNotFound)
  | some tree =>
      -- the path and auto-save flag are assigned before the extension check
      let st1 := { st with config_file_path := some file_path, auto_save := auto_save }
      match formatOfPath file_path with
      | some ft => ({ st1 with file_type := some ft, config_data := tree }, none)
      | none => (st1, some PyErr.valueUnsupported)

/-- `create_config(file_path, initial_data, auto_save, force)`
(lines 104-144).  The existence check precedes any mutation; the path,
auto-save flag and data are assigned before the extension check. -/
def create_config (fs : FS) (st : Store) (file_path : String) (initial_data : Dict)
    (auto_save : Bool) (force : Bool) : Store × Option PyErr :=
  if (fsGet fs file_path).isSome ∧ ¬ force then (st, some PyErr.fileExists)
  else
    let st1 : Store :=
      { config_data := initial_data, config_file_path := some file_path,
        file_type := st.file_type, auto_save := auto_save }
    match formatOfPath file_path with
    | some ft => ({ st1 with file_type := some ft }, none)
    | none => (st1, some PyErr.valueUnsupported)

/-- `create_or_load_config(file_path, initial_data, auto_save)`
(lines 192-242).  When the file exists, its tree is loaded and the
defaults merged in with `_merge_defaults_with_existing`; a merge crash
(`AttributeError`) escapes after `config_data` was replaced by the loaded
tree.  When it does not exist, the defaults become the tree. -/
def create_or_load_config (fs : FS) (st : Store) (file_path : String)
    (initial_data : Dict) (auto_save : Bool) : Store × Option PyErr :=
  let st1 := { st with config_file_path := some file_path, auto_save := auto_save }
  match formatOfPath file_path with
  | none => (st1, some PyErr.valueUnsupported)
  | some ft =>
      let st2 := { st1 with file_type := some ft }
      match fsGet fs file_path with
      | some tree =>
          let st3 := { st2 with config_data := tree }
          if initial_data.isEmpty then (st3, none)
          else
            match merge_defaults_with_existing tree initial_data false with
            | some m => ({ st3 with config_data := m }, none)
            | none => (st3, some PyErr.attrErr)
      | none => ({ st2 with config_data := initial_data }, none)

/-- `reset()` (lines 589-594): clears data, path and format; the auto-save
flag is untouched. -/
def reset (st : Store) : Store :=
  { st with config_data := [], config_file_path := none, file_type := none }

/-- The invariant stated by the spec: `format` is set if and only if
`path` is set. -/
def formatIffPath (st : Store) : Prop :=
  st.file_type.isSome = st.config_file_path.isSome

/-- Truthiness of the `section` argument (`if ... and section:`): Python's
`None` and the empty string are both falsy. -/
def sectionTruthy (sect : Option String) : Bool :=
  match sect with
  | some s => ¬ s.isEmpty
  | none => false

/-- `get_key_case_insensitive(target_dict, search_key)` local to `get`
(lines 348-357): `None` (here `vnull`) when `target_dict` is not a dict or
no key matches case-insensitively; otherwise the first matching entry's
value.  A stored `None` is returned as `None`, indistinguishable from
absence. -/
def get_key_case_insensitive (target_dict : Value) (search_key : String) : Value :=
  match target_dict with
  | .vdict d =>
      match d.find? (fun p => strLower p.1 = strLower search_key) with
      | some p => p.2
      | none => .vnull
  | _ => .vnull

/-- `str_to_bool` local to `get` (lines 324-331): `none` is the
`ValueError` that the conversion wrapper turns into a conversion error. -/
def str_to_bool (s : String) : Option Bool :=
  let t := strLower (strTrim s)
  if t = "true" ∨ t = "1" ∨ t = "yes" ∨ t = "y" ∨ t = "t" then some true
  else if t = "false" ∨ t = "0" ∨ t = "no" ∨ t = "n" ∨ t = "f" then some false
  else none

/-- Conversion targets for the `type_change` callable.  The module accepts
any callable; the spec's design note models the ones the interface is used
with as a closed set, of which the boolean parser is the special-cased
one. -/
inductive TypeTarget where
  | tBool : TypeTarget
  | tInt  : TypeTarget
deriving DecidableEq, Repr

/-- Embedding of Python `int(value)` on the module's value types: `none`
is the `ValueError`/`TypeError` the conversion wrapper catches. -/
def pyInt : Value → Option Value
  | .vint n => some (.vint n)
  | .vbool b => some (.vint (if b then 1 else 0))
  | .vstr s => match (strTrim s).toInt? with
      | some n => some (.vint n)
      | none => none
  | .vdict _ => none
  | .vnull => none

/-- Embedding of Python `bool(value)` on non-string values. -/
def pyBool : Value → Bool
  | .vint n => n ≠ 0
  | .vbool b => b
  | .vstr s => ¬ s.isEmpty
  | .vdict d => ¬ d.isEmpty
  | .vnull => false

/-- The `convert` helper local to `get` (lines 333-346): identity when no
target or the value is `None`; the dedicated string-to-bool parser for a
boolean target on a string; otherwise the target applied directly.
`none` is the `ValueError` (conversion error) raised to the caller. -/
def convertValue (type_change : Option TypeTarget) (value : Value) : Option Value :=
  match type_change with
  | none => some value
  | some t =>
      if value.isNull then some value
      else
        match t, value with
        | .tBool, .vstr s =>
            match str_to_bool s with
            | some b => some (.vbool b)
            | none => none
        | .tBool, v => some (.vbool (pyBool v))
        | .tInt, v => pyInt v

/-- Wraps `convertValue` as the `Except` the caller of `get` sees. -/
def applyConvert (type_change : Option TypeTarget) (v : Value) : Except PyErr Value :=
  match convertValue type_change v with
  | some v2 => Except.ok v2
  | none => Except.error PyErr.conversion

/-- The section scan of `get` without a section (lines 377-382 and
403-408): the first section-shaped value containing a non-`None`
case-insensitive match for the key. -/
def scanSections (d : Dict) (key : String) : Value :=
  match d with
  | [] => .vnull
  | (_, v) :: rest =>
      match v with
      | .vdict s =>
          let r := get_key_case_insensitive (.vdict s) key
          if r.isNull then scanSections rest key else r
      | _ => scanSections rest key

/-- `get(key, default, section, type_change)` (lines 303-411).  The
branches follow the source: CFG with a truthy section, CFG without, then
the JSON/other path with its `'general'` top-level alias.  `get` holds
only the data lock and never mutates the store. -/
def get (st : Store) (key : String) (default : Value) (sect : Option String)
    (type_change : Option TypeTarget) : Except PyErr Value :=
  let data := st.config_data
  if st.file_type = some FileType.cfg ∧ sectionTruthy sect then
    let sname := sect.getD ""
    let section_data := get_key_case_insensitive (.vdict data) sname
    if section_data.isNull then Except.ok default
    else
      let value := get_key_case_insensitive section_data key
      if value.isNull then Except.ok default else applyConvert type_change value
  else if st.file_type = some FileType.cfg then
    let value := get_key_case_insensitive (.vdict data) key
    if value.isNull then
      let r := scanSections data key
      if r.isNull then Except.ok default else applyConvert type_change r
    else applyConvert type_change value
  else
    if sectionTruthy sect then
      let sname := sect.getD ""
      let section_data :=
        if sname = "general" then Value.vdict data
        else get_key_case_insensitive (.vdict data) sname
      if section_data.isNull then Except.ok default
      else
        let value := get_key_case_insensitive section_data key
        if value.isNull then Except.ok default else applyConvert type_change value
    else
      let value := get_key_case_insensitive (.vdict data) key
      if value.isNull then
        let r := scanSections data key
        if r.isNull then Except.ok default else applyConvert type_change r
      else applyConvert type_change value

/-- Python single quote, used by the `repr`-style rendering of `str(dict)`. -/
def sq : String := Char.toString (Char.ofNat 39)

/- Embedding of Python `str`/`repr` on a value (mutually with dict
entries), as `set` stringifies values for CFG files.  String escaping
inside `repr` is not reproduced (no claim depends on it). -/
mutual

/-- Renders one value the way Python `repr` does. -/
def pyReprV : Value → String
  | .vstr s => sq ++ s ++ sq
  | .vint n => toString n
  | .vbool b => if b then "True" else "False"
  | .vnull => "None"
  | .vdict d => "\x7b" ++ pyReprEntries d ++ "\x7d"

/-- Renders the comma-separated entries of a dict `repr`. -/
def pyReprEntries : List (String × Value) → String
  | [] => ""
  | [(k, v)] => sq ++ k ++ sq ++ ": " ++ pyReprV v
  | (k, v) :: rest => sq ++ k ++ sq ++ ": " ++ pyReprV v ++ ", " ++ pyReprEntries rest

end

/-- Embedding of Python `str(value)` as used by `set` for CFG files. -/
def pyStr : Value → String
  | .vstr s => s
  | v => pyReprV v

/-- The dotted-path write of `set` for JSON (lines 432-443): walks
`key.split('.')`, creating intermediate dicts, and assigns the last
segment.  `none` is the `TypeError` raised when the walk runs into a
non-dict (in which case no mutation has happened yet, because fresh
intermediate dicts can only be followed by fresh dicts). -/
def setPath (data : Dict) (ks : List String) (value : Value) : Option Dict :=
  match ks with
  | [] => none
  | [k] => some (dictSet data k value)
  | k :: rest =>
      match (dictGet data k).getD (.vdict []) with
      | .vdict d =>
          match setPath d rest value with
          | some d2 => some (dictSet data k (.vdict d2))
          | none => none
      | _ => none

/-- `set(key, value, section)` (lines 413-447).  CFG requires a truthy
section and stores `str(value)` under the exact section and key; JSON
uses dotted-path notation and stores the value as-is.  With auto-save on,
the save runs after the mutation and can itself raise (no path). -/
def set (st : Store) (key : String) (value : Value) (sect : Option String) :
    Store × Option PyErr :=
  if st.file_type = some FileType.cfg then
    if ¬ sectionTruthy sect then (st, some PyErr.valueNoSection)
    else
      let sname := sect.getD ""
      let data1 :=
        if (dictGet st.config_data sname).isSome then st.config_data
        else dictSet st.config_data sname (.vdict [])
      match dictGet data1 sname with
      | some (.vdict d) =>
          let st2 := { st with
            config_data := dictSet data1 sname (.vdict (dictSet d key (.vstr (pyStr value)))) }
          (st2, if st.auto_save then save_config_internal st2 else none)
      | _ => (st, some PyErr.typeErr)
  else
    match setPath st.config_data (splitDot key) value with
    | some d2 =>
        let st2 := { st with config_data := d2 }
        (st2, if st.auto_save then save_config_internal st2 else none)
    | none => (st, some PyErr.typeErr)

/-- The `key_exists_case_insensitive` helper local to `has`
(lines 461-467), with its `isinstance` guard. -/
def keyExistsGuarded (target : Value) (search_key : String) : Bool :=
  match target with
  | .vdict d => d.any (fun p => strLower p.1 = strLower search_key)
  | _ => false

/-- The dotted-path walk of `has` for JSON (lines 488-505): each segment
before the last is resolved case-insensitively; the final segment is
checked with the guarded helper.  `none` is the `AttributeError` raised by
`value.keys()` when an intermediate value is not a dict — that exception
is NOT in the `except (KeyError, TypeError)` clause and escapes. -/
def hasPath (value : Value) (ks : List String) : Option Bool :=
  match ks with
  | [] => some false
  | [k] => some (keyExistsGuarded value k)
  | k :: rest =>
      match value with
      | .vdict d =>
          match d.find? (fun p => strLower p.1 = strLower k) with
          | some p => hasPath p.2 rest
          | none => some false
      | _ => none

/-- `has(key, section)` (lines 449-505). -/
def has (st : Store) (key : String) (sect : Option String) : Option Bool :=
  if st.file_type = some FileType.cfg ∧ sectionTruthy sect then
    let sname := sect.getD ""
    if ¬ keyExistsGuarded (.vdict st.config_data) sname then some false
    else
      match findKeyCI st.config_data sname with
      | some actual =>
          some (keyExistsGuarded ((dictGet st.config_data actual).getD .vnull) key)
      | none => some false
  else if st.file_type = some FileType.cfg then
    some (st.config_data.any (fun p => keyExistsGuarded p.2 key))
  else
    hasPath (.vdict st.config_data) (splitDot key)

/-- The dotted-path removal of `delete` for JSON (lines 530-549): exact
navigation to the parent, exact check-and-remove of the last segment;
`KeyError`/`TypeError` along the way are caught and yield `False`. -/
def delPath (d : Dict) (ks : List String) : Dict × Bool :=
  match ks with
  | [] => (d, false)
  | [k] => if (dictGet d k).isSome then (dictErase d k, true) else (d, false)
  | k :: rest =>
      match dictGet d k with
      | some (.vdict sub) =>
          let r := delPath sub rest
          (if r.2 then dictSet d k (.vdict r.1) else d, r.2)
      | _ => (d, false)

/-- `delete(key, section)` (lines 507-549).  CFG: requires a truthy
section, exact section and key match (`key in <non-dict section>` raises a
TypeError that nothing catches).  JSON: dotted path, exact matches.  The
boolean result is `none` when an exception escapes instead. -/
def delete (st : Store) (key : String) (sect : Option String) :
    Store × Option PyErr × Option Bool :=
  if st.file_type = some FileType.cfg then
    if ¬ sectionTruthy sect then (st, some PyErr.valueNoSection, none)
    else
      let sname := sect.getD ""
      match dictGet st.config_data sname with
      | some (.vdict d) =>
          if (dictGet d key).isSome then
            let st2 := { st with
              config_data := dictSet st.config_data sname (.vdict (dictErase d key)) }
            match (if st.auto_save then save_config_internal st2 else none) with
            | none => (st2, none, some true)
            | some e => (st2, some e, none)
          else (st, none, some false)
      | some _ => (st, some PyErr.typeErr, none)
      | none => (st, none, some false)
  else
    let r := delPath st.config_data (splitDot key)
    if r.2 then
      let st2 := { st with config_data := r.1 }
      match (if st.auto_save then save_config_internal st2 else none) with
      | none => (st2, none, some true)
      | some e => (st2, some e, none)
    else (st, none, some false)

/-- `get_section(section)` on the tree level (lines 551-565): the exact
key's mapping, `[]` when absent; `none` models the `AttributeError` of
`.copy()` on a non-dict value.  The copy's sharing structure is modelled
separately on the heap below. -/
def get_section_tree (st : Store) (sect : String) : Option Dict :=
  match dictGet st.config_data sect with
  | some (.vdict d) => some d
  | some _ => none
  | none => some []

/-- `get_all()` on the tree level (lines 567-575). -/
def get_all_tree (st : Store) : Dict := st.config_data

/-- Lock acquisition / release events, in program order, as emitted by the
`with self._file_lock:` / `with self._data_lock:` blocks. -/
inductive LockEv where
  | acqFile : LockEv
  | relFile : LockEv
  | acqData : LockEv
  | relData : LockEv
deriving DecidableEq, Repr

/-- Lock events of `load_config` (lines 88-89): the existence check comes
before the locks; the file lock wraps the data lock; `with` releases on
error exits too, so the trace is the same on every exit path. -/
def lockTrace_load_config : List LockEv :=
  [LockEv.acqFile, LockEv.acqData, LockEv.relData, LockEv.relFile]

/-- Lock events of `create_config` (lines 121-122). -/
def lockTrace_create_config : List LockEv :=
  [LockEv.acqFile, LockEv.acqData, LockEv.relData, LockEv.relFile]

/-- Lock events of `create_or_load_config` (lines 206-207). -/
def lockTrace_create_or_load_config : List LockEv :=
  [LockEv.acqFile, LockEv.acqData, LockEv.relData, LockEv.relFile]

/-- Lock events of `save_config` (lines 261-264). -/
def lockTrace_save_config : List LockEv := [LockEv.acqFile, LockEv.relFile]

/-- Lock events of `reload` (lines 582-587). -/
def lockTrace_reload : List LockEv :=
  [LockEv.acqFile, LockEv.acqData, LockEv.relData, LockEv.relFile]

/-- Lock events of `get` / `has` / `get_section` / `get_all`: only the
data lock. -/
def lockTrace_get : List LockEv := [LockEv.acqData, LockEv.relData]

/-- Lock events of `set` (lines 422-447): the data lock wraps everything;
when the mutation did not raise and auto-save is on, the file lock is
acquired INSIDE the data lock for the save step. -/
def lockTrace_set (raised auto_saves : Bool) : List LockEv :=
  [LockEv.acqData]
    ++ (if ¬ raised ∧ auto_saves then [LockEv.acqFile, LockEv.relFile] else [])
    ++ [LockEv.relData]

/-- Lock events of `delete` (lines 518-549): same shape as `set`, with the
file lock taken inside the data lock when a removal is persisted. -/
def lockTrace_delete (deleted auto_saves : Bool) : List LockEv :=
  [LockEv.acqData]
    ++ (if deleted ∧ auto_saves then [LockEv.acqFile, LockEv.relFile] else [])
    ++ [LockEv.relData]

/-- Numeric id of the lock an event concerns (0 = file, 1 = data). -/
def lockOf : LockEv → Nat
  | LockEv.acqFile => 0
  | LockEv.relFile => 0
  | LockEv.acqData => 1
  | LockEv.relData => 1

/-- Tests whether an event is an acquisition. -/
def isAcq : LockEv → Bool
  | LockEv.acqFile => true
  | LockEv.acqData => true
  | _ => false

/-- Checks that a trace acquires and releases in well-nested LIFO order
and holds nothing at the end (every acquired lock is released on exit). -/
def balancedAux : List LockEv → List Nat → Bool
  | [], [] => true
  | [], _ :: _ => false
  | e :: rest, stk =>
      if isAcq e then balancedAux rest (lockOf e :: stk)
      else
        match stk with
        | top :: stk2 => if top = lockOf e then balancedAux rest stk2 else false
        | [] => false

/-- A trace is balanced when it starts and ends holding nothing. -/
def balanced (t : List LockEv) : Bool := balancedAux t []

/-- Position of the first occurrence of an event in a trace. -/
def firstIdx (t : List LockEv) (e : LockEv) : Option Nat :=
  t.findIdx? (fun x => x = e)

/-- The property the spec's locking rule requires of an operation that
persists: the file lock is acquired before the data lock. -/
def acquiresFileThenData (t : List LockEv) : Bool :=
  match firstIdx t LockEv.acqFile, firstIdx t LockEv.acqData with
  | some i, some j => if i < j then true else false
  | _, _ => false

/-- Tests whether a trace performs file I/O (acquires the file lock). -/
def touchesFile (t : List LockEv) : Bool := t.any (fun e => e = LockEv.acqFile)

/-- Heap objects for the aliasing model of `get_section` / `get_all`:
Python dict objects hold ADDRESSES of their values, so a shallow `.copy()`
is a fresh dict node sharing the children of the original. -/
inductive HObj where
  | hstr  : String → HObj
  | hint  : Int → HObj
  | hbool : Bool → HObj
  | hnull : HObj
  | hdict : List (String × Nat) → HObj
deriving DecidableEq, Repr

/-- A heap is addressed by list position; allocation appends. -/
abbrev Heap := List HObj

/-- Reads the object at an address. -/
def heapGet (h : Heap) (a : Nat) : Option HObj := h.get? a

/-- Overwrites the object at an address (in-place mutation). -/
def heapSet (h : Heap) (a : Nat) (o : HObj) : Heap := h.set a o

/-- Addresses an object refers to. -/
def refsOf : HObj → List Nat
  | .hdict entries => entries.map Prod.snd
  | _ => []

/-- Closedness of a heap: every stored reference is a valid address. -/
def heapWF (h : Heap) : Prop := ∀ o ∈ h, ∀ r ∈ refsOf o, r < h.length

/-- Python `d[k] = a` on an address-valued dict: replace in place or
append. -/
def assocSet (d : List (String × Nat)) (k : String) (a : Nat) : List (String × Nat) :=
  if d.any (fun p => p.1 = k) then d.map (fun p => if p.1 = k then (p.1, a) else p)
  else d ++ [(k, a)]

/-- `get_section` at the pointer level: `self._config_data.get(section,
{}).copy()` allocates a fresh dict node whose entries still point at the
original children (shallow copy); `.copy()` on a non-dict value raises. -/
def heap_get_section (h : Heap) (root : Nat) (sect : String) : Option (Heap × Nat) :=
  match heapGet h root with
  | some (.hdict entries) =>
      match entries.find? (fun p => p.1 = sect) with
      | some p =>
          match heapGet h p.2 with
          | some (.hdict sub) => some (h ++ [HObj.hdict sub], h.length)
          | _ => none
      | none => some (h ++ [HObj.hdict []], h.length)
  | _ => none

/-- `get_all` at the pointer level: a shallow copy of the root dict. -/
def heap_get_all (h : Heap) (root : Nat) : Option (Heap × Nat) :=
  match heapGet h root with
  | some (.hdict entries) => some (h ++ [HObj.hdict entries], h.length)
  | _ => none

/-- A caller mutating a returned mapping: `m[k] = obj` allocates the new
object and rebinds the key inside the dict node at `a`. -/
def heap_assign (h : Heap) (a : Nat) (k : String) (o : HObj) : Heap :=
  let h1 := h ++ [o]
  match heapGet h1 a with
  | some (.hdict entries) => heapSet h1 a (.hdict (assocSet entries k h.length))
  | _ => h1

/-- A caller reading `m[k]` out of a returned mapping: the child address. -/
def heap_index (h : Heap) (a : Nat) (k : String) : Option Nat :=
  match heapGet h a with
  | some (.hdict entries) =>
      match entries.find? (fun p => p.1 = k) with
      | some p => some p.2
      | none => none
  | _ => none

/-- Reads the pure tree rooted at an address (with fuel, since a raw heap
could be cyclic; config trees are not). -/
def derefVal (h : Heap) : Nat → Nat → Option Value
  | 0, _ => none
  | fuel + 1, a =>
      match heapGet h a with
      | some (.hstr s) => some (.vstr s)
      | some (.hint n) => some (.vint n)
      | some (.hbool b) => some (.vbool b)
      | some .hnull => some .vnull
      | some (.hdict entries) =>
          (entries.mapM (fun p => (derefVal h fuel p.2).map (fun v => (p.1, v)))).map
            Value.vdict
      | none => none

/-- Exact navigation along a list of keys (specification-side reading of a
tree, used to state what `set`/`delete` did at a dotted path). -/
def navPath (v : Value) : List String → Option Value
  | [] => some v
  | k :: rest =>
      match v with
      | .vdict d =>
          match dictGet d k with
          | some v2 => navPath v2 rest
          | none => none
      | _ => none

/-- Exact existence of a full dotted path ending in a present leaf key
(the condition under which `delete`'s JSON branch finds something). -/
def exactPathHas (v : Value) : List String → Bool
  | [] => false
  | [k] =>
      match v with
      | .vdict d => (dictGet d k).isSome
      | _ => false
  | k :: rest =>
      match v with
      | .vdict d =>
          match dictGet d k with
          | some v2 => exactPathHas v2 rest
          | none => false
      | _ => false

/-- The walk of `set`'s JSON branch meets no scalar: every existing value
along the path is a dict (missing segments are created fresh, which is
always clear). -/
def pathClear (v : Value) : List String → Bool
  | [] => true
  | k :: rest =>
      match v with
      | .vdict d =>
          match rest with
          | [] => true
          | _ :: _ =>
              match dictGet d k with
              | some v2 => pathClear v2 rest
              | none => true
      | _ => false

/-- Pairwise-distinct keys of one dict level, the invariant every Python
dict satisfies by construction. -/
def keysNodupB : Dict → Bool
  | [] => true
  | p :: rest => (¬ rest.any (fun q => q.1 = p.1)) && keysNodupB rest

/-- States that every case-insensitive match for `k` in `d` holds `None`. -/
def ciMatchesAllNull (d : Dict) (k : String) : Bool :=
  d.all (fun p => ¬ strLower p.1 = strLower k ∨ p.2.isNull)

/-- States that every value `get`'s lookup can observe for `k` — at top
level or inside any section-shaped value — is `None`. -/
def allLookupsNull (d : Dict) (k : String) : Bool :=
  ciMatchesAllNull d k
    && d.all (fun p =>
        match p.2 with
        | .vdict s => ciMatchesAllNull s k
        | _ => true)

/-- States that a processed default entry is saturated in a tree: a dict
default has a case-insensitive section match whose dict contains a
case-insensitive match for each of its keys; a scalar default has its
case-insensitive match inside the exact `general` section. -/
def entryDone (m : Dict) (key : String) (value : Value) : Bool :=
  match value with
  | .vdict sub =>
      match m.find? (fun p => strLower p.1 = strLower key) with
      | some p =>
          match p.2 with
          | .vdict s => sub.all (fun q => keyExistsCI s q.1)
          | _ => false
      | none => false
  | _ =>
      match dictGet m "general" with
      | some (.vdict g) => keyExistsCI g key
      | _ => false

/-- Keys of one level of a dict. -/
def dictKeys (d : Dict) : List String := d.map Prod.fst

/-- States that a merged tree preserves every top-level entry of the
existing tree: scalar values verbatim, mapping values only extended by
appended entries whose keys are lower-cased and had no case-insensitive
match in the original mapping. -/
def preservesTop (E m : Dict) : Prop :=
  ∀ k0 v0, dictGet E k0 = some v0 →
    ((∀ s0, ¬ v0 = Value.vdict s0) → dictGet m k0 = some v0) ∧
    (∀ s0, v0 = Value.vdict s0 →
      ∃ ext, dictGet m k0 = some (Value.vdict (s0 ++ ext)) ∧
        ∀ p ∈ ext, p.1 = strLower p.1 ∧ keyExistsCI s0 p.1 = false)

/-- States that every top-level key of a merged tree is an existing key of
`E`, the literal `general`, or the lower-casing of a dict-valued defaults
key with no case-insensitive match in `E`. -/
def keysFrom (E D m : Dict) : Prop :=
  ∀ p ∈ m, (∃ v0, dictGet E p.1 = some v0) ∨ p.1 = "general" ∨
    (∃ q ∈ D, (∃ sub, q.2 = Value.vdict sub) ∧ p.1 = strLower q.1 ∧
      keyExistsCI E q.1 = false)

/-- States that a merged tree keeps every case-insensitive key of `E`. -/
def ciSub (E m : Dict) : Prop :=
  ∀ k, keyExistsCI E k = true → keyExistsCI m k = true

/-- The inverted order: the data lock is acquired before the file lock. -/
def acquiresDataThenFile (t : List LockEv) : Bool :=
  match firstIdx t LockEv.acqData, firstIdx t LockEv.acqFile with
  | some i, some j => if i < j then true else false
  | _, _ => false

/-! Helper lemmas about the string and dict primitives. -/

/-- Converting a valid code point back to a natural number is faithful. -/
theorem charOfNat_toNat (n : Nat) (h : n.isValidChar) : (Char.ofNat n).toNat = n := by
  rw [Char.ofNat, dif_pos h]
  simp [Char.ofNatAux, Char.toNat, UInt32.toNat, BitVec.toNat_ofNatLt]

/-- ASCII lower-casing of a character is idempotent. -/
theorem charToLower_idem (c : Char) : Char.toLower (Char.toLower c) = Char.toLower c := by
  by_cases h : c.toNat ≥ 65 ∧ c.toNat ≤ 90
  · have hv : Nat.isValidChar (c.toNat + 32) := by
      left; omega
    have hval : (Char.ofNat (c.toNat + 32)).toNat = c.toNat + 32 := charOfNat_toNat _ hv
    have h1 : Char.toLower c = Char.ofNat (c.toNat + 32) := by
      rw [Char.toLower]
      exact if_pos h
    rw [h1, Char.toLower, if_neg]
    rw [hval]
    omega
  · have h1 : Char.toLower c = c := by
      rw [Char.toLower]
      exact if_neg h
    rw [h1, h1]

/-- Lower-casing a string is idempotent. -/
theorem strLower_idem (s : String) : strLower (strLower s) = strLower s := by
  unfold strLower
  congr 1
  rw [List.map_map]
  apply List.map_congr_left
  intro a _
  exact charToLower_idem a

/-- Unfolds `dictSet` over a cons cell. -/
theorem dictSet_cons (p : String × Value) (rest : Dict) (k : String) (v : Value) :
    dictSet (p :: rest) k v =
      if p.1 = k then (p.1, v) :: rest.map (fun q => if q.1 = k then (q.1, v) else q)
      else p :: dictSet rest k v := by
  by_cases hp : p.1 = k
  · simp [dictSet, hp]
  · simp only [dictSet, List.any_cons, if_neg hp]
    by_cases hr : rest.any (fun q => q.1 = k)
    · simp [hp, hr]
    · simp [hp, hr]

/-- Replacement leaves the key list untouched. -/
theorem dictKeys_map_set (d : Dict) (k : String) (v : Value) :
    dictKeys (d.map (fun q => if q.1 = k then (q.1, v) else q)) = dictKeys d := by
  unfold dictKeys
  rw [List.map_map]
  apply List.map_congr_left
  intro q _
  by_cases hq : q.1 = k <;> simp [hq]

/-- The key list of `dictSet` is the old one, or the old one with the new
key appended. -/
theorem dictKeys_dictSet (d : Dict) (k : String) (v : Value) :
    dictKeys (dictSet d k v) = dictKeys d ∨
      dictKeys (dictSet d k v) = dictKeys d ++ [k] := by
  unfold dictSet
  by_cases hd : d.any (fun p => p.1 = k)
  · left
    rw [if_pos hd]
    exact dictKeys_map_set d k v
  · right
    rw [if_neg hd]
    simp [dictKeys]

/-- Case-insensitive existence depends only on the key list. -/
theorem keyExistsCI_iff (d : Dict) (k : String) :
    keyExistsCI d k = true ↔ ∃ x ∈ dictKeys d, strLower x = strLower k := by
  unfold keyExistsCI dictKeys
  simp [List.any_eq_true]

/-- Writing any entry preserves case-insensitive existence. -/
theorem keyExistsCI_dictSet_mono (d : Dict) (k k2 : String) (v : Value)
    (h : keyExistsCI d k = true) : keyExistsCI (dictSet d k2 v) k = true := by
  rw [keyExistsCI_iff] at h ⊢
  obtain ⟨x, hx, hlx⟩ := h
  refine ⟨x, ?_, hlx⟩
  rcases dictKeys_dictSet d k2 v with heq | heq <;> rw [heq] <;> simp [hx]

/-- After writing under the lower-cased key, the original key exists
case-insensitively. -/
theorem keyExistsCI_dictSet_lower (d : Dict) (k : String) (v : Value) :
    keyExistsCI (dictSet d (strLower k) v) k = true := by
  by_cases hd : d.any (fun p => p.1 = strLower k)
  · have hex : keyExistsCI d k = true := by
      rw [keyExistsCI_iff]
      rw [List.any_eq_true] at hd
      obtain ⟨p, hp, hpk⟩ := hd
      simp only [decide_eq_true_eq] at hpk
      exact ⟨p.1, List.mem_map_of_mem Prod.fst hp, by rw [hpk, strLower_idem]⟩
    exact keyExistsCI_dictSet_mono d k (strLower k) v hex
  · rw [keyExistsCI_iff]
    refine ⟨strLower k, ?_, strLower_idem k⟩
    rcases dictKeys_dictSet d (strLower k) v with heq | heq
    · exfalso
      unfold dictSet at heq
      rw [if_neg hd] at heq
      have : strLower k ∈ dictKeys (d ++ [(strLower k, v)]) := by simp [dictKeys]
      rw [heq] at this
      rw [List.any_eq_true] at hd
      apply hd
      unfold dictKeys at this
      obtain ⟨p, hp, hpk⟩ := List.mem_map.mp this
      exact ⟨p, hp, by simp [hpk]⟩
    · rw [heq]
      simp

/-- Reading back the key just written. -/
theorem dictGet_dictSet_self (d : Dict) (k : String) (v : Value) :
    dictGet (dictSet d k v) k = some v := by
  induction d with
  | nil => simp [dictSet, dictGet]
  | cons p rest ih =>
      rw [dictSet_cons]
      by_cases hp : p.1 = k
      · simp [hp, dictGet]
      · rw [if_neg hp]
        unfold dictGet at ih ⊢
        simp only [List.find?_cons, hp]
        simpa using ih

/-- Reading another key after a replacement write. -/
theorem dictGet_map_set_ne (d : Dict) (k k2 : String) (v : Value) (hne : ¬ k2 = k) :
    dictGet (d.map (fun q => if q.1 = k then (q.1, v) else q)) k2 = dictGet d k2 := by
  induction d with
  | nil => rfl
  | cons p rest ih =>
      by_cases hp : p.1 = k
      · have hp2 : ¬ p.1 = k2 := by rw [hp]; intro h; exact hne h.symm
        unfold dictGet
        simp only [List.map_cons, if_pos hp, List.find?_cons, hp2]
        simpa [dictGet] using ih
      · unfold dictGet
        simp only [List.map_cons, if_neg hp, List.find?_cons]
        by_cases hp2 : p.1 = k2
        · simp [hp2]
        · simp only [hp2]
          simpa [dictGet] using ih

/-- Reading another key after any write. -/
theorem dictGet_dictSet_ne (d : Dict) (k k2 : String) (v : Value) (hne : ¬ k2 = k) :
    dictGet (dictSet d k v) k2 = dictGet d k2 := by
  unfold dictSet
  by_cases hd : d.any (fun p => p.1 = k)
  · rw [if_pos hd]
    exact dictGet_map_set_ne d k k2 v hne
  · rw [if_neg hd]
    unfold dictGet
    rw [List.find?_append]
    have hsingle : List.find? (fun p => p.1 = k2) [(k, v)] = none := by
      simp [List.find?, show ¬ (k = k2) from fun h => hne h.symm]
    cases hfind : List.find? (fun p => p.1 = k2) d <;> simp [hfind, hsingle]

/-- Replacing an entry by the value it already holds is the identity, on a
level with pairwise-distinct keys. -/
theorem dictSet_id (d : Dict) (k : String) (v : Value)
    (hnd : keysNodupB d = true) (hget : dictGet d k = some v) :
    dictSet d k v = d := by
  induction d with
  | nil => simp [dictGet] at hget
  | cons p rest ih =>
      rw [dictSet_cons]
      unfold keysNodupB at hnd
      rw [Bool.and_eq_true] at hnd
      by_cases hp : p.1 = k
      · rw [if_pos hp]
        unfold dictGet at hget
        simp only [List.find?_cons, hp] at hget
        have hv : v = p.2 := by
          simpa using hget.symm
        have hrest : rest.map (fun q => if q.1 = k then (q.1, v) else q) = rest := by
          conv_rhs => rw [← List.map_id rest]
          apply List.map_congr_left
          intro q hq
          have hqp : ¬ q.1 = p.1 := by
            have hnone := hnd.1
            simp only [decide_eq_true_eq, Bool.not_eq_true] at hnone
            rw [List.any_eq_false] at hnone
            intro hqq
            have := hnone q hq
            simp [hqq] at this
          rw [if_neg (by rw [← hp]; exact hqp)]
          rfl
        rw [hrest, hv]
      · rw [if_neg hp]
        unfold dictGet at hget
        simp only [List.find?_cons, hp] at hget
        have hget2 : dictGet rest k = some v := by
          simpa [dictGet] using hget
        rw [ih hnd.2 hget2]

/-! Claim C8: lock ordering of the persisting operations. -/

/-- C8: the claim says every operation that inspects or mutates the tree
and persists it — including the auto-save paths of `set` and `delete` —
acquires the file lock first and the data lock second.  This is false:
`set`'s auto-save trace (no exception raised, auto-save on) performs file
I/O, yet its first acquisition is the data lock, so the file lock is NOT
acquired first. -/
theorem c8_counterexample :
    touchesFile (lockTrace_set false true) = true ∧
    balanced (lockTrace_set false true) = true ∧
    acquiresFileThenData (lockTrace_set false true) = false := by decide

/-- C8 amended: `load_config`, `create_config`, `create_or_load_config`,
`save_config` and `reload` acquire the file lock first and the data lock
second and release both on every exit path; `set` and `delete` also
release both on every exit path, but acquire the data lock FIRST and take
the file lock inside it when their auto-save path persists. -/
theorem c8_amended :
    (balanced lockTrace_load_config = true ∧
      acquiresFileThenData lockTrace_load_config = true) ∧
    (balanced lockTrace_create_config = true ∧
      acquiresFileThenData lockTrace_create_config = true) ∧
    (balanced lockTrace_create_or_load_config = true ∧
      acquiresFileThenData lockTrace_create_or_load_config = true) ∧
    (balanced lockTrace_save_config = true ∧
      balanced lockTrace_reload = true ∧
      acquiresFileThenData lockTrace_reload = true) ∧
    (∀ raised auto : Bool,
      balanced (lockTrace_set raised auto) = true ∧
      balanced (lockTrace_delete raised auto) = true) ∧
    (touchesFile (lockTrace_set false true) = true ∧
      acquiresDataThenFile (lockTrace_set false true) = true) ∧
    (touchesFile (lockTrace_delete true true) = true ∧
      acquiresDataThenFile (lockTrace_delete true true) = true) ∧
    (∀ auto : Bool,
      touchesFile (lockTrace_set true auto) = false ∧
      touchesFile (lockTrace_delete false auto) = false ∧
      touchesFile (lockTrace_set false false) = false ∧
      touchesFile lockTrace_get = false) := by decide

/-! Claim C4: the format-iff-path invariant. -/

/-- C4: the claim says the store satisfies `format set iff path set` after
every public operation, in particular after an exit with
`UnsupportedFormatError`.  This is false: `load_config` assigns the path
(and auto-save flag) BEFORE the extension check, so on a fresh store a
load of an existing `.txt` file exits with the unsupported-format error
leaving the path set and the format unset. -/
theorem c4_counterexample :
    (load_config [("config.txt", [])] ⟨[], none, none, true⟩ "config.txt" true).2
        = some PyErr.valueUnsupported ∧
    (load_config [("config.txt", [])] ⟨[], none, none, true⟩ "config.txt" true).1.config_file_path
        = some "config.txt" ∧
    (load_config [("config.txt", [])] ⟨[], none, none, true⟩ "config.txt" true).1.file_type
        = none ∧
    ¬ formatIffPath (load_config [("config.txt", [])] ⟨[], none, none, true⟩ "config.txt" true).1 := by
  refine ⟨rfl, rfl, rfl, ?_⟩
  unfold formatIffPath
  decide

/-- C4 amended: every SUCCESSFUL `load_config` / `create_config` /
`create_or_load_config` establishes the invariant (path and format both
set), as does an exit caused by a merge crash; `reset` re-establishes it
by clearing both; the not-found and already-exists error exits leave the
store untouched; but an `UnsupportedFormatError` exit assigns the path
while leaving the format field unchanged, so on a store that has never
loaded, that error exit breaks the invariant. -/
theorem c4_amended (fs : FS) (st : Store) (p : String) (d : Dict) (a f : Bool) :
    ((load_config fs st p a).2 = none → formatIffPath (load_config fs st p a).1) ∧
    ((create_config fs st p d a f).2 = none →
      formatIffPath (create_config fs st p d a f).1) ∧
    ((create_or_load_config fs st p d a).2 = none →
      formatIffPath (create_or_load_config fs st p d a).1) ∧
    ((create_or_load_config fs st p d a).2 = some PyErr.attrErr →
      formatIffPath (create_or_load_config fs st p d a).1) ∧
    formatIffPath (reset st) ∧
    ((load_config fs st p a).2 = some PyErr.fileNotFound →
      (load_config fs st p a).1 = st) ∧
    ((create_config fs st p d a f).2 = some PyErr.fileExists →
      (create_config fs st p d a f).1 = st) ∧
    ((load_config fs st p a).2 = some PyErr.valueUnsupported →
      (load_config fs st p a).1.config_file_path = some p ∧
      (load_config fs st p a).1.file_type = st.file_type) ∧
    ((create_or_load_config fs st p d a).2 = some PyErr.valueUnsupported →
      (create_or_load_config fs st p d a).1.config_file_path = some p ∧
      (create_or_load_config fs st p d a).1.file_type = st.file_type) := by
  refine ⟨?_, ?_, ?_, ?_, ?_, ?_, ?_, ?_, ?_⟩
  · unfold load_config
    cases hfs : fsGet fs p with
    | none => simp
    | some tree =>
        cases hfmt : formatOfPath p with
        | none => simp [hfmt]
        | some ft => simp [hfmt, formatIffPath]
  · unfold create_config
    cases f <;> cases hget : fsGet fs p <;>
      cases hfmt : formatOfPath p <;>
      simp [hget, hfmt, formatIffPath]
  · unfold create_or_load_config
    cases hfmt : formatOfPath p with
    | none => simp [hfmt]
    | some ft =>
        cases hfs : fsGet fs p with
        | none => simp [hfmt, hfs, formatIffPath]
        | some tree =>
            by_cases hemp : d.isEmpty
            · simp [hfmt, hfs, hemp, formatIffPath]
            · cases hm : merge_defaults_with_existing tree d false with
              | none => simp [hfmt, hfs, hemp, hm, formatIffPath]
              | some m => simp [hfmt, hfs, hemp, hm, formatIffPath]
  · unfold create_or_load_config
    cases hfmt : formatOfPath p with
    | none => simp [hfmt]
    | some ft =>
        cases hfs : fsGet fs p with
        | none => simp [hfmt, hfs, formatIffPath]
        | some tree =>
            by_cases hemp : d.isEmpty
            · simp [hfmt, hfs, hemp, formatIffPath]
            · cases hm : merge_defaults_with_existing tree d false with
              | none => simp [hfmt, hfs, hemp, hm, formatIffPath]
              | some m => simp [hfmt, hfs, hemp, hm, formatIffPath]
  · simp [reset, formatIffPath]
  · unfold load_config
    cases hfs : fsGet fs p with
    | none => simp
    | some tree =>
        cases hfmt : formatOfPath p with
        | none => simp [hfmt]
        | some ft => simp [hfmt]
  · unfold create_config
    cases f <;> cases hget : fsGet fs p <;>
      cases hfmt : formatOfPath p <;>
      simp [hget, hfmt]
  · unfold load_config
    cases hfs : fsGet fs p with
    | none => simp
    | some tree =>
        cases hfmt : formatOfPath p with
        | none => simp [hfmt]
        | some ft => simp [hfmt]
  · unfold create_or_load_config
    cases hfmt : formatOfPath p with
    | none => simp [hfmt]
    | some ft =>
        cases hfs : fsGet fs p with
        | none => simp [hfmt, hfs]
        | some tree =>
            by_cases hemp : d.isEmpty
            · simp [hfmt, hfs, hemp]
            · cases hm : merge_defaults_with_existing tree d false with
              | none => simp [hfmt, hfs, hemp, hm]
              | some m => simp [hfmt, hfs, hemp, hm]

/-- C4 amended, witnessed at concrete inputs: a successful JSON load
establishes the invariant, and a `reset` on the broken post-error store
re-establishes it. -/
theorem c4_amended_witness :
    formatIffPath (load_config [("app.json", [("x", Value.vint 1)])]
      ⟨[], none, none, true⟩ "app.json" true).1 ∧
    formatIffPath (reset ⟨[], some "config.txt", none, true⟩) :=
  ⟨(c4_amended [("app.json", [("x", Value.vint 1)])] ⟨[], none, none, true⟩
      "app.json" [] true true).1 rfl,
   (c4_amended [] ⟨[], some "config.txt", none, true⟩ "x" [] true true).2.2.2.2.1⟩

/-! Claim C5: the string-to-bool conversion of typed `get`. -/

/-- Characterizes `str_to_bool` by the trimmed, lower-cased token lists it
accepts. -/
theorem str_to_bool_eq (s : String) :
    (str_to_bool s = some true ↔
      strLower (strTrim s) ∈ (["true", "1", "yes", "y", "t"] : List String)) ∧
    (str_to_bool s = some false ↔
      strLower (strTrim s) ∈ (["false", "0", "no", "n", "f"] : List String)) ∧
    (str_to_bool s = none ↔
      strLower (strTrim s) ∉ (["true", "1", "yes", "y", "t"] : List String) ∧
      strLower (strTrim s) ∉ (["false", "0", "no", "n", "f"] : List String)) := by
  unfold str_to_bool
  by_cases h1 : strLower (strTrim s) = "true" ∨ strLower (strTrim s) = "1" ∨
      strLower (strTrim s) = "yes" ∨ strLower (strTrim s) = "y" ∨
      strLower (strTrim s) = "t"
  · simp only [if_pos h1]
    rcases h1 with h | h | h | h | h <;> rw [h] <;> decide
  · rw [if_neg h1]
    by_cases h2 : strLower (strTrim s) = "false" ∨ strLower (strTrim s) = "0" ∨
        strLower (strTrim s) = "no" ∨ strLower (strTrim s) = "n" ∨
        strLower (strTrim s) = "f"
    · rw [if_pos h2]
      simp [List.mem_cons]
      tauto
    · rw [if_neg h2]
      simp [List.mem_cons]
      tauto

/-- C5: on a JSON store holding the string `s` under the requested key, a
`get` with the boolean conversion target returns `true` exactly when the
trimmed lower-cased `s` is one of true/1/yes/y/t, `false` exactly for
false/0/no/n/f, and fails with the conversion error exactly otherwise;
and when the key is absent, any conversion target is skipped and the
caller's default is returned unconverted. -/
theorem c5_bool_conversion (s k : String) (d : Value) :
    (get ⟨[(k, Value.vstr s)], some "app.json", some FileType.json, true⟩ k d none
        (some TypeTarget.tBool) = Except.ok (Value.vbool true) ↔
      strLower (strTrim s) ∈ (["true", "1", "yes", "y", "t"] : List String)) ∧
    (get ⟨[(k, Value.vstr s)], some "app.json", some FileType.json, true⟩ k d none
        (some TypeTarget.tBool) = Except.ok (Value.vbool false) ↔
      strLower (strTrim s) ∈ (["false", "0", "no", "n", "f"] : List String)) ∧
    (get ⟨[(k, Value.vstr s)], some "app.json", some FileType.json, true⟩ k d none
        (some TypeTarget.tBool) = Except.error PyErr.conversion ↔
      (strLower (strTrim s) ∉ (["true", "1", "yes", "y", "t"] : List String) ∧
       strLower (strTrim s) ∉ (["false", "0", "no", "n", "f"] : List String))) ∧
    (∀ tc : Option TypeTarget,
      get ⟨[], some "app.json", some FileType.json, true⟩ k d none tc = Except.ok d) := by
  have hred : get ⟨[(k, Value.vstr s)], some "app.json", some FileType.json, true⟩ k d none
      (some TypeTarget.tBool) =
      (match str_to_bool s with
        | some b => Except.ok (Value.vbool b)
        | none => Except.error PyErr.conversion) := by
    simp [get, sectionTruthy, get_key_case_insensitive, Value.isNull, applyConvert,
      convertValue]
    cases hb : str_to_bool s <;> simp [hb]
  obtain ⟨ht, hf, hn⟩ := str_to_bool_eq s
  refine ⟨?_, ?_, ?_, ?_⟩
  · rw [hred, ← ht]
    cases hb : str_to_bool s with
    | none => simp
    | some b => cases b <;> simp
  · rw [hred, ← hf]
    cases hb : str_to_bool s with
    | none => simp
    | some b => cases b <;> simp
  · rw [hred, ← hn]
    cases hb : str_to_bool s with
    | none => simp
    | some b => cases b <;> simp
  · intro tc
    simp [get, sectionTruthy, get_key_case_insensitive, scanSections, Value.isNull]

/-! Claim C6: `has` is claimed never to raise. -/

/-- C6: the claim says `has` always returns a boolean and never raises,
for every key including dot-separated keys whose path traverses a scalar.
The code contradicts it: with a JSON tree holding the scalar `5` at key
`a`, `has("a.b.c")` runs the traversal loop a second time with `value =
5`, and `value.keys()` raises `AttributeError`, which the surrounding
`except (KeyError, TypeError)` clause does not catch (`none` in the
model).  The scalar at the FINAL segment is guarded (`has("a.b")` returns
`False`), which shows the `except` clause intended traversal errors to
yield `False` — the uncaught error is the slip. -/
theorem c6_code_bug :
    has ⟨[("a", Value.vint 5)], some "app.json", some FileType.json, true⟩ "a.b.c" none
      = none ∧
    has ⟨[("a", Value.vint 5)], some "app.json", some FileType.json, true⟩ "a.b" none
      = some false :=
  ⟨rfl, rfl⟩

/-! Claim C9: exact-match `delete`. -/

/-- Erasing a key removes every trace of it at that level. -/
theorem dictGet_dictErase_self (d : Dict) (k : String) :
    dictGet (dictErase d k) k = none := by
  induction d with
  | nil => rfl
  | cons p rest ih =>
      unfold dictErase at ih ⊢
      by_cases hp : p.1 = k
      · simpa [List.filter_cons, hp] using ih
      · simpa [List.filter_cons, hp, dictGet, List.find?_cons] using ih

/-- Unfolds `dictGet` over a cons cell. -/
theorem dictGet_cons (p : String × Value) (rest : Dict) (k2 : String) :
    dictGet (p :: rest) k2 = if p.1 = k2 then some p.2 else dictGet rest k2 := by
  unfold dictGet
  rw [List.find?_cons]
  by_cases hp2 : p.1 = k2 <;> simp [hp2]

/-- Unfolds `dictErase` over a cons cell. -/
theorem dictErase_cons (p : String × Value) (rest : Dict) (k : String) :
    dictErase (p :: rest) k =
      if p.1 = k then dictErase rest k else p :: dictErase rest k := by
  by_cases hp : p.1 = k <;> simp [dictErase, List.filter_cons, hp]

/-- Erasing a key leaves every other key's value unchanged. -/
theorem dictGet_dictErase_ne (d : Dict) (k k2 : String) (hne : ¬ k2 = k) :
    dictGet (dictErase d k) k2 = dictGet d k2 := by
  induction d with
  | nil => rfl
  | cons p rest ih =>
      rw [dictErase_cons]
      by_cases hp : p.1 = k
      · have hp2 : ¬ p.1 = k2 := by rw [hp]; intro h; exact hne h.symm
        rw [if_pos hp, ih, dictGet_cons, if_neg hp2]
      · rw [if_neg hp, dictGet_cons, dictGet_cons, ih]

/-- The boolean `delete`'s JSON walk returns is exactly the existence of
the dotted path. -/
theorem delPath_snd_eq (d : Dict) (ks : List String) :
    (delPath d ks).2 = exactPathHas (.vdict d) ks := by
  induction ks generalizing d with
  | nil => rfl
  | cons k rest ih =>
      cases rest with
      | nil =>
          simp only [delPath, exactPathHas]
          by_cases hg : (dictGet d k).isSome <;> simp [hg]
      | cons r rs =>
          simp only [delPath, exactPathHas]
          cases hget : dictGet d k with
          | none => rfl
          | some v2 =>
              cases v2 with
              | vdict sub => exact ih sub
              | vstr s => cases rs <;> rfl
              | vint n => cases rs <;> rfl
              | vbool b => cases rs <;> rfl
              | vnull => cases rs <;> rfl

/-- A failed `delete` walk leaves the tree untouched. -/
theorem delPath_fst_of_false (d : Dict) (ks : List String)
    (h : (delPath d ks).2 = false) : (delPath d ks).1 = d := by
  induction ks generalizing d with
  | nil => rfl
  | cons k rest ih =>
      cases rest with
      | nil =>
          simp only [delPath] at h ⊢
          by_cases hg : (dictGet d k).isSome
          · simp [hg] at h
          · simp [hg]
      | cons r rs =>
          simp only [delPath] at h ⊢
          cases hget : dictGet d k with
          | none => rfl
          | some v2 =>
              cases v2 with
              | vdict sub =>
                  simp only [hget] at h ⊢
                  simp [h]
              | vstr s => simp [hget]
              | vint n => simp [hget]
              | vbool b => simp [hget]
              | vnull => simp [hget]

/-- Walking the same dotted path right after a successful removal finds
nothing. -/
theorem delPath_twice (d : Dict) (ks : List String)
    (h : (delPath d ks).2 = true) : (delPath (delPath d ks).1 ks).2 = false := by
  induction ks generalizing d with
  | nil => simp [delPath] at h
  | cons k rest ih =>
      cases rest with
      | nil =>
          simp only [delPath] at h ⊢
          by_cases hg : (dictGet d k).isSome
          · simp only [hg, if_true]
            simp [dictGet_dictErase_self]
          · simp [hg] at h
      | cons r rs =>
          simp only [delPath] at h ⊢
          cases hget : dictGet d k with
          | none => simp [hget] at h
          | some v2 =>
              cases v2 with
              | vdict sub =>
                  simp only [hget] at h ⊢
                  have h2 : (delPath sub (r :: rs)).2 = true := h
                  simp only [h2, if_true]
                  rw [dictGet_dictSet_self]
                  exact ih _ h2
              | vstr s => simp [hget] at h
              | vint n => simp [hget] at h
              | vbool b => simp [hget] at h
              | vnull => simp [hget] at h

/-- Helper: the CFG `delete` on a section holding a dict, when the exact
key is present. -/
theorem delete_cfg_found (st : Store) (key sname : String) (d : Dict)
    (hpath : st.config_file_path.isSome = true)
    (hcfg : st.file_type = some FileType.cfg)
    (hsec : sectionTruthy (some sname) = true)
    (hget : dictGet st.config_data sname = some (Value.vdict d))
    (hkey : (dictGet d key).isSome = true) :
    delete st key (some sname) =
      ({ st with config_data :=
          dictSet st.config_data sname (Value.vdict (dictErase d key)) },
        none, some true) := by
  cases hauto : st.auto_save <;>
    simp [delete, hcfg, hsec, hget, hkey, hauto, save_config_internal, hpath]

/-- Helper: the CFG `delete` on a section holding a dict, when the exact
key is absent. -/
theorem delete_cfg_missing (st : Store) (key sname : String) (d : Dict)
    (hcfg : st.file_type = some FileType.cfg)
    (hsec : sectionTruthy (some sname) = true)
    (hget : dictGet st.config_data sname = some (Value.vdict d))
    (hkey : (dictGet d key).isSome = false) :
    delete st key (some sname) = (st, none, some false) := by
  simp [delete, hcfg, hsec, hget, hkey]

/-- Helper: the JSON `delete` when the dotted path exists. -/
theorem delete_json_found (st : Store) (key : String) (sect : Option String)
    (hpath : st.config_file_path.isSome = true)
    (hncfg : ¬ st.file_type = some FileType.cfg)
    (hr : (delPath st.config_data (splitDot key)).2 = true) :
    delete st key sect =
      ({ st with config_data := (delPath st.config_data (splitDot key)).1 },
        none, some true) := by
  cases hauto : st.auto_save <;>
    simp [delete, hncfg, hr, hauto, save_config_internal, hpath]

/-- Helper: the JSON `delete` when the dotted path does not exist. -/
theorem delete_json_missing (st : Store) (key : String) (sect : Option String)
    (hncfg : ¬ st.file_type = some FileType.cfg)
    (hr : (delPath st.config_data (splitDot key)).2 = false) :
    delete st key sect = (st, none, some false) := by
  simp [delete, hncfg, hr]

/-- Helper: in the CFG branch, a `delete` that returned `true` returns
`false` when repeated. -/
theorem c9_delete_aux (st : Store) (key sname : String) (d : Dict)
    (hpath : st.config_file_path.isSome = true)
    (hcfg : st.file_type = some FileType.cfg)
    (hsec : sectionTruthy (some sname) = true)
    (hget : dictGet st.config_data sname = some (Value.vdict d)) :
    (delete st key (some sname)).2.2 = some true →
    (delete (delete st key (some sname)).1 key (some sname)).2.2 = some false := by
  intro htrue
  by_cases hkey : (dictGet d key).isSome
  · rw [delete_cfg_found st key sname d hpath hcfg hsec hget hkey]
    have hget2 : dictGet (dictSet st.config_data sname (Value.vdict (dictErase d key)))
        sname = some (Value.vdict (dictErase d key)) :=
      dictGet_dictSet_self _ _ _
    have hkey2 : (dictGet (dictErase d key) key).isSome = false := by
      rw [dictGet_dictErase_self]
      rfl
    have hstep := delete_cfg_missing ({ st with config_data := dictSet st.config_data sname (Value.vdict (dictErase d key)) } : Store) key sname (dictErase d key) hcfg hsec hget2 hkey2
    rw [hstep]
  · simp only [Bool.not_eq_true] at hkey
    rw [delete_cfg_missing st key sname d hcfg hsec hget hkey] at htrue
    cases htrue

/-- Helper: in the JSON branch, a `delete` that returned `true` returns
`false` when repeated. -/
theorem c9_delete_aux_json (st : Store) (key : String) (sect : Option String)
    (hpath : st.config_file_path.isSome = true)
    (hncfg : ¬ st.file_type = some FileType.cfg) :
    (delete st key sect).2.2 = some true →
    (delete (delete st key sect).1 key sect).2.2 = some false := by
  intro htrue
  by_cases hr : (delPath st.config_data (splitDot key)).2
  · rw [delete_json_found st key sect hpath hncfg hr]
    have hr2 : (delPath (delPath st.config_data (splitDot key)).1 (splitDot key)).2
        = false := delPath_twice _ _ hr
    have hstep := delete_json_missing ({ st with config_data := (delPath st.config_data (splitDot key)).1 } : Store) key sect hncfg hr2
    rw [hstep]
  · simp only [Bool.not_eq_true] at hr
    rw [delete_json_missing st key sect hncfg hr] at htrue
    cases htrue

/-- C9: `delete` removes only an exactly-matching key and returns whether
it existed; INI without a section fails with the missing-section error;
deleting the same key twice yields `true` then `false`.  (On a store with
a path set, so the auto-save step cannot itself raise.)  The INI clause
exposes the exact section/key matching and that only the matched key is
removed; the JSON clause characterizes the result by exact dotted-path
existence. -/
theorem c9_delete (st : Store) (key : String) (sect : Option String)
    (hpath : st.config_file_path.isSome = true) :
    (st.file_type = some FileType.cfg → sectionTruthy sect = false →
      delete st key sect = (st, some PyErr.valueNoSection, none)) ∧
    (∀ sname d, st.file_type = some FileType.cfg → sect = some sname →
      sectionTruthy sect = true →
      dictGet st.config_data sname = some (Value.vdict d) →
      (((delete st key sect).2.2 = some true) ↔ (dictGet d key).isSome = true) ∧
      ((dictGet d key).isSome = true →
        (delete st key sect).1.config_data
            = dictSet st.config_data sname (Value.vdict (dictErase d key)) ∧
        (delete st key sect).2.1 = none ∧
        dictGet (dictErase d key) key = none ∧
        (∀ k2, ¬ k2 = key → dictGet (dictErase d key) k2 = dictGet d k2)) ∧
      ((dictGet d key).isSome = false → delete st key sect = (st, none, some false))) ∧
    (¬ st.file_type = some FileType.cfg →
      (((delete st key sect).2.2 = some true) ↔
        exactPathHas (Value.vdict st.config_data) (splitDot key) = true) ∧
      (exactPathHas (Value.vdict st.config_data) (splitDot key) = false →
        delete st key sect = (st, none, some false))) ∧
    ((delete st key sect).2.2 = some true →
      (delete (delete st key sect).1 key sect).2.2 = some false) := by
  refine ⟨?_, ?_, ?_, ?_⟩
  · intro hcfg hsec
    simp [delete, hcfg, hsec]
  · intro sname d hcfg hsect hsec hget
    subst hsect
    by_cases hkey : (dictGet d key).isSome
    · rw [delete_cfg_found st key sname d hpath hcfg hsec hget hkey]
      refine ⟨by simp [hkey], ?_, by intro hfalse; rw [hkey] at hfalse; cases hfalse⟩
      intro _
      exact ⟨rfl, rfl, dictGet_dictErase_self d key,
        fun k2 hk2 => dictGet_dictErase_ne d key k2 hk2⟩
    · simp only [Bool.not_eq_true] at hkey
      rw [delete_cfg_missing st key sname d hcfg hsec hget hkey]
      refine ⟨by simp [hkey], ?_, fun _ => rfl⟩
      intro htrue
      rw [htrue] at hkey
      cases hkey
  · intro hncfg
    by_cases hr : (delPath st.config_data (splitDot key)).2
    · rw [delete_json_found st key sect hpath hncfg hr]
      constructor
      · rw [← delPath_snd_eq]
        simp [hr]
      · intro hfalse
        rw [← delPath_snd_eq] at hfalse
        rw [hr] at hfalse
        cases hfalse
    · simp only [Bool.not_eq_true] at hr
      rw [delete_json_missing st key sect hncfg hr]
      constructor
      · rw [← delPath_snd_eq]
        simp [hr]
      · intro _
        rfl
  · intro htrue
    by_cases hcfg : st.file_type = some FileType.cfg
    · by_cases hsec : sectionTruthy sect
      · cases hsect : sect with
        | none => rw [hsect] at hsec; cases hsec
        | some sname =>
            subst hsect
            cases hget : dictGet st.config_data sname with
            | none =>
                have hd : delete st key (some sname) = (st, none, some false) := by
                  simp [delete, hcfg, hsec, hget]
                rw [hd] at htrue
                cases htrue
            | some v =>
                cases v with
                | vdict d => exact c9_delete_aux st key sname d hpath hcfg hsec hget htrue
                | vstr s =>
                    have hd : delete st key (some sname) = (st, some PyErr.typeErr, none) := by
                      simp [delete, hcfg, hsec, hget]
                    rw [hd] at htrue
                    cases htrue
                | vint n =>
                    have hd : delete st key (some sname) = (st, some PyErr.typeErr, none) := by
                      simp [delete, hcfg, hsec, hget]
                    rw [hd] at htrue
                    cases htrue
                | vbool b =>
                    have hd : delete st key (some sname) = (st, some PyErr.typeErr, none) := by
                      simp [delete, hcfg, hsec, hget]
                    rw [hd] at htrue
                    cases htrue
                | vnull =>
                    have hd : delete st key (some sname) = (st, some PyErr.typeErr, none) := by
                      simp [delete, hcfg, hsec, hget]
                    rw [hd] at htrue
                    cases htrue
      · simp only [Bool.not_eq_true] at hsec
        have hd : delete st key sect = (st, some PyErr.valueNoSection, none) := by
          simp [delete, hcfg, hsec]
        rw [hd] at htrue
        cases htrue
    · exact c9_delete_aux_json st key sect hpath hcfg htrue

/-- C9 witnessed on the spec's scenario 6: deleting `port` from section
`server` of an INI store twice returns `true` then `false`. -/
theorem c9_delete_witness :
    (delete (⟨[("server", Value.vdict [("port", Value.vint 9090)])],
        some "app.cfg", some FileType.cfg, true⟩ : Store) "port" (some "server")).2.2
      = some true ∧
    (delete (delete (⟨[("server", Value.vdict [("port", Value.vint 9090)])],
        some "app.cfg", some FileType.cfg, true⟩ : Store) "port" (some "server")).1
      "port" (some "server")).2.2 = some false := by
  have h := c9_delete (⟨[("server", Value.vdict [("port", Value.vint 9090)])],
      some "app.cfg", some FileType.cfg, true⟩ : Store) "port" (some "server") rfl
  have h1 := ((h.2.1 "server" [("port", Value.vint 9090)] rfl rfl rfl rfl).1).mpr rfl
  exact ⟨h1, h.2.2.2 h1⟩

/-! Claim C10: stored `None` values at the `get` interface. -/

/-- Spells out `Value.isNull`. -/
theorem isNull_iff (v : Value) : v.isNull = true ↔ v = Value.vnull := by
  cases v <;> simp [Value.isNull]

/-- With every case-insensitive match null, the case-insensitive lookup
returns `None`. -/
theorem getCI_null_of_allNull (d : Dict) (key : String)
    (h : ciMatchesAllNull d key = true) :
    get_key_case_insensitive (.vdict d) key = Value.vnull := by
  have hred : get_key_case_insensitive (.vdict d) key =
      (match d.find? (fun p => strLower p.1 = strLower key) with
        | some p => p.2
        | none => Value.vnull) := rfl
  rw [hred]
  cases hf : d.find? (fun p => strLower p.1 = strLower key) with
  | none => rfl
  | some p =>
      have hmem := List.mem_of_find?_eq_some hf
      have hpred := List.find?_some hf
      simp only [decide_eq_true_eq] at hpred
      unfold ciMatchesAllNull at h
      rw [List.all_eq_true] at h
      have hthis := h p hmem
      simp only [Bool.decide_or, Bool.or_eq_true, decide_eq_true_eq] at hthis
      rcases hthis with hne | hnull
      · cases hne hpred
      · exact (isNull_iff p.2).mp hnull

/-- With every observable match null, the section scan finds nothing. -/
theorem scanSections_null_of_allNull (d : Dict) (key : String)
    (h : (d.all (fun p =>
        match p.2 with
        | .vdict s => ciMatchesAllNull s key
        | _ => true)) = true) :
    scanSections d key = Value.vnull := by
  induction d with
  | nil => rfl
  | cons p rest ih =>
      obtain ⟨k1, v1⟩ := p
      rw [List.all_cons, Bool.and_eq_true] at h
      cases v1 with
      | vdict s =>
          have h1 : ciMatchesAllNull s key = true := h.1
          have hci := getCI_null_of_allNull s key h1
          show (let r := get_key_case_insensitive (.vdict s) key;
                if r.isNull = true then scanSections rest key else r) = Value.vnull
          rw [hci]
          simpa [Value.isNull] using ih h.2
      | vstr v => exact ih h.2
      | vint v => exact ih h.2
      | vbool v => exact ih h.2
      | vnull => exact ih h.2

/-- C10 amended: `get` never returns or converts a stored `None`: when
every value its lookup can observe for the key is `None`, it returns the
caller's default unconverted (for every format, section argument and
conversion target).  The original claim fails only when a DIFFERENT
non-null match for the key exists elsewhere, in which case `get` falls
through to that match rather than the default (see the counterexample). -/
theorem c10_amended (data : Dict) (key : String) (default : Value)
    (sect : Option String) (ft : Option FileType) (auto : Bool) (p : Option String)
    (tc : Option TypeTarget)
    (hnull : allLookupsNull data key = true) :
    get ⟨data, p, ft, auto⟩ key default sect tc = Except.ok default := by
  unfold allLookupsNull at hnull
  rw [Bool.and_eq_true] at hnull
  have htop := getCI_null_of_allNull data key hnull.1
  have hscan := scanSections_null_of_allNull data key hnull.2
  have hsecdata : ∀ sname,
      get_key_case_insensitive (get_key_case_insensitive (.vdict data) sname) key
        = Value.vnull := by
    intro sname
    have hred : get_key_case_insensitive (.vdict data) sname =
        (match data.find? (fun q => strLower q.1 = strLower sname) with
          | some q => q.2
          | none => Value.vnull) := rfl
    rw [hred]
    cases hff : data.find? (fun q => strLower q.1 = strLower sname) with
    | none => rfl
    | some q =>
        show get_key_case_insensitive q.2 key = Value.vnull
        cases hv : q.2 with
        | vdict s =>
            apply getCI_null_of_allNull
            have hall := hnull.2
            rw [List.all_eq_true] at hall
            have hmem := List.mem_of_find?_eq_some hff
            have hq := hall q hmem
            rw [hv] at hq
            exact hq
        | vstr v => rfl
        | vint v => rfl
        | vbool v => rfl
        | vnull => rfl
  by_cases hcfg : ft = some FileType.cfg
  · by_cases hsec : sectionTruthy sect
    · cases hsect : sect with
      | none => rw [hsect] at hsec; cases hsec
      | some sname =>
          subst hsect
          have hs := hsecdata sname
          simp only [get, hcfg, hsec, if_true, and_self, Option.getD_some]
          by_cases hf : (get_key_case_insensitive (Value.vdict data) sname).isNull
          · simp [hf]
          · simp [hf, hs, Value.isNull]
    · simp only [Bool.not_eq_true] at hsec
      simp [get, hcfg, hsec, htop, hscan, Value.isNull]
  · by_cases hsec : sectionTruthy sect
    · cases hsect : sect with
      | none => rw [hsect] at hsec; cases hsec
      | some sname =>
          subst hsect
          have hs := hsecdata sname
          by_cases hgen : sname = "general"
          · subst hgen
            simp [get, hcfg, hsec, htop, Value.isNull]
          · simp only [get, hcfg, hsec, if_true, if_false, hgen, Option.getD_some]
            by_cases hf : (get_key_case_insensitive (Value.vdict data) sname).isNull
            · simp [hf]
            · simp [hf, hs, Value.isNull]
    · simp only [Bool.not_eq_true] at hsec
      simp [get, hcfg, hsec, htop, hscan, Value.isNull]

/-- C10 as stated is false: the tree stores `None` at top-level key `a`,
yet `get("a")` does not return the caller default `"d"` — the lookup
treats the null as absence and falls through to the `a` inside section
`s`, returning `5`. -/
theorem c10_counterexample :
    dictGet [("a", Value.vnull), ("s", Value.vdict [("a", Value.vint 5)])] "a"
        = some Value.vnull ∧
    get ⟨[("a", Value.vnull), ("s", Value.vdict [("a", Value.vint 5)])],
        some "app.json", some FileType.json, true⟩ "a" (Value.vstr "d") none none
      = Except.ok (Value.vint 5) ∧
    ¬ (Value.vint 5 = Value.vstr "d") ∧ ¬ (Value.vint 5 = Value.vnull) :=
  ⟨rfl, rfl, fun h => Value.noConfusion h, fun h => Value.noConfusion h⟩

/-! Claim C3: dotted-path `set` versus `get`. -/

/-- Splitting a key on dots always yields at least one segment. -/
theorem splitDotAux_ne_nil (cs acc : List Char) : splitDotAux cs acc ≠ [] := by
  induction cs generalizing acc with
  | nil => simp [splitDotAux]
  | cons c rest ih =>
      unfold splitDotAux
      by_cases hc : c = '.'
      · simp [hc]
      · simpa [hc] using ih (c :: acc)

/-- A clear walk starting from the empty dict stays clear. -/
theorem pathClear_nil_dict (ks : List String) :
    pathClear (Value.vdict []) ks = true := by
  cases ks with
  | nil => rfl
  | cons k rest =>
      cases rest with
      | nil => rfl
      | cons r rs => rfl

/-- The dotted-path write succeeds on a clear walk and the written value
is found back by exact navigation along the same path. -/
theorem setPath_navPath (d : Dict) (ks : List String) (v : Value)
    (hclear : pathClear (Value.vdict d) ks = true) (hne : ks ≠ []) :
    ∃ d2, setPath d ks v = some d2 ∧ navPath (Value.vdict d2) ks = some v := by
  induction ks generalizing d with
  | nil => cases hne rfl
  | cons k rest ih =>
      cases rest with
      | nil =>
          refine ⟨dictSet d k v, rfl, ?_⟩
          show (match dictGet (dictSet d k v) k with
            | some v2 => navPath v2 []
            | none => none) = some v
          rw [dictGet_dictSet_self]
          rfl
      | cons r rs =>
          have hclear2 : (match dictGet d k with
              | some v2 => pathClear v2 (r :: rs)
              | none => true) = true := hclear
          cases hget : dictGet d k with
          | some v2 =>
              rw [hget] at hclear2
              cases v2 with
              | vdict sub =>
                  obtain ⟨d2, hset, hnav⟩ := ih sub hclear2 (by simp)
                  refine ⟨dictSet d k (Value.vdict d2), ?_, ?_⟩
                  · show (match (dictGet d k).getD (Value.vdict []) with
                      | Value.vdict dd =>
                          match setPath dd (r :: rs) v with
                          | some dd2 => some (dictSet d k (Value.vdict dd2))
                          | none => none
                      | _ => none) = some (dictSet d k (Value.vdict d2))
                    rw [hget]
                    show (match setPath sub (r :: rs) v with
                      | some dd2 => some (dictSet d k (Value.vdict dd2))
                      | none => none) = some (dictSet d k (Value.vdict d2))
                    rw [hset]
                  · show (match dictGet (dictSet d k (Value.vdict d2)) k with
                      | some v2 => navPath v2 (r :: rs)
                      | none => none) = some v
                    rw [dictGet_dictSet_self]
                    exact hnav
              | vstr s =>
                  exact Bool.noConfusion hclear2
              | vint n =>
                  exact Bool.noConfusion hclear2
              | vbool b =>
                  exact Bool.noConfusion hclear2
              | vnull =>
                  exact Bool.noConfusion hclear2
          | none =>
              obtain ⟨d2, hset, hnav⟩ :=
                ih [] (pathClear_nil_dict (r :: rs)) (by simp)
              refine ⟨dictSet d k (Value.vdict d2), ?_, ?_⟩
              · show (match (dictGet d k).getD (Value.vdict []) with
                  | Value.vdict dd =>
                      match setPath dd (r :: rs) v with
                      | some dd2 => some (dictSet d k (Value.vdict dd2))
                      | none => none
                  | _ => none) = some (dictSet d k (Value.vdict d2))
                rw [hget]
                show (match setPath [] (r :: rs) v with
                  | some dd2 => some (dictSet d k (Value.vdict dd2))
                  | none => none) = some (dictSet d k (Value.vdict d2))
                rw [hset]
              · show (match dictGet (dictSet d k (Value.vdict d2)) k with
                  | some v2 => navPath v2 (r :: rs)
                  | none => none) = some v
                rw [dictGet_dictSet_self]
                exact hnav

/-- C3 as stated is false: on a fresh JSON store, `set("a.b.c", 5)` does
create the intermediate mappings and stores `5` at the leaf (visible to
`getAll`), but the subsequent `get("a.b.c")` does NOT interpret the dots —
it looks the literal key up, finds nothing and returns the caller default
instead of `5`. -/
theorem c3_counterexample :
    (set (⟨[], some "app.json", some FileType.json, false⟩ : Store) "a.b.c"
        (Value.vint 5) none).1.config_data
      = [("a", Value.vdict [("b", Value.vdict [("c", Value.vint 5)])])] ∧
    (set (⟨[], some "app.json", some FileType.json, false⟩ : Store) "a.b.c"
        (Value.vint 5) none).2 = none ∧
    get (set (⟨[], some "app.json", some FileType.json, false⟩ : Store) "a.b.c"
        (Value.vint 5) none).1 "a.b.c" (Value.vstr "fallback") none none
      = Except.ok (Value.vstr "fallback") ∧
    ¬ (Except.ok (Value.vstr "fallback") = (Except.ok (Value.vint 5) : Except PyErr Value)) :=
  ⟨rfl, rfl, rfl, fun h => by cases h⟩

/-- C3 amended: on a JSON-format store (with a path set, so auto-save
cannot raise) whose walk of `key.split('.')` meets no scalar, `set`
creates the intermediate mappings and stores `v` unmodified at the leaf:
exact navigation along the same segments — in particular
`getAll()[..]..` — finds `v`.  But `get` does not interpret dot notation:
it looks up the literal key, so whenever every value its lookup can
observe for the LITERAL dotted key is absent or null, it returns the
caller-supplied default rather than `v`. -/
theorem c3_amended (st : Store) (key : String) (v : Value)
    (hjson : ¬ st.file_type = some FileType.cfg)
    (hpath : st.config_file_path.isSome = true)
    (hclear : pathClear (Value.vdict st.config_data) (splitDot key) = true) :
    ∃ tree2,
      set st key v none = ({ st with config_data := tree2 }, none) ∧
      navPath (Value.vdict tree2) (splitDot key) = some v ∧
      get_all_tree (set st key v none).1 = tree2 ∧
      (∀ dflt : Value, allLookupsNull tree2 key = true →
        get ({ st with config_data := tree2 } : Store) key dflt none none
          = Except.ok dflt) := by
  obtain ⟨d2, hset, hnav⟩ :=
    setPath_navPath st.config_data (splitDot key) v hclear (splitDotAux_ne_nil _ _)
  refine ⟨d2, ?_, hnav, ?_, ?_⟩
  · cases hauto : st.auto_save <;>
      simp [set, hjson, hset, hauto, save_config_internal, hpath]
  · have hs : set st key v none = ({ st with config_data := d2 }, none) := by
      cases hauto : st.auto_save <;>
        simp [set, hjson, hset, hauto, save_config_internal, hpath]
    rw [hs]
    rfl
  · intro dflt hmiss
    unfold allLookupsNull at hmiss
    rw [Bool.and_eq_true] at hmiss
    have htop := getCI_null_of_allNull d2 key hmiss.1
    have hscan := scanSections_null_of_allNull d2 key hmiss.2
    simp [get, hjson, sectionTruthy, htop, hscan, Value.isNull]

/-- C3 amended, witnessed on the spec's scenario 5 store: `set("a.b.c",
5)` then exact navigation yields `5`, while the literal-key `get` falls
back to the default. -/
theorem c3_amended_witness :
    ∃ tree2,
      (set (⟨[], some "app.json", some FileType.json, true⟩ : Store) "a.b.c"
        (Value.vint 5) none).1.config_data = tree2 ∧
      (set (⟨[], some "app.json", some FileType.json, true⟩ : Store) "a.b.c"
        (Value.vint 5) none).2 = none ∧
      navPath (Value.vdict tree2) (splitDot "a.b.c") = some (Value.vint 5) ∧
      get (set (⟨[], some "app.json", some FileType.json, true⟩ : Store) "a.b.c"
        (Value.vint 5) none).1 "a.b.c" (Value.vstr "fallback") none none
        = Except.ok (Value.vstr "fallback") := by
  obtain ⟨tree2, h1, h2, _, h4⟩ :=
    c3_amended (⟨[], some "app.json", some FileType.json, true⟩ : Store) "a.b.c"
      (Value.vint 5) (by simp) rfl (by decide)
  have h1' : tree2 = [("a", Value.vdict [("b", Value.vdict [("c", Value.vint 5)])])] := by
    have hc := congrArg (fun r => (r.1).config_data) h1
    simpa using hc.symm
  refine ⟨tree2, ?_, ?_, h2, ?_⟩
  · rw [h1]
  · rw [h1]
  · rw [h1]
    apply h4
    rw [h1']
    decide

/-! Claim C7: `get_section` / `get_all` return SHALLOW copies. -/

/-- Mapping with pointwise-equal monadic functions gives equal results. -/
theorem mapM_option_congr {α β : Type} (f g : α → Option β) (l : List α)
    (h : ∀ x ∈ l, f x = g x) : l.mapM f = l.mapM g := by
  induction l with
  | nil => rfl
  | cons q rest ih =>
      rw [List.mapM_cons, List.mapM_cons, h q (by simp),
        ih (fun x hx => h x (by simp [hx]))]

/-- Reads below the old length are unaffected by appending and by
overwriting an appended cell. -/
theorem heapGet_extend_set (h : Heap) (ext : List HObj) (o : HObj) (a : Nat)
    (ha : a < h.length) : heapGet ((h ++ ext).set h.length o) a = heapGet h a := by
  unfold heapGet
  rw [List.get?_set_ne _ _ (by omega)]
  exact List.get?_append ha

/-- Reads below the old length are unaffected by appending. -/
theorem heapGet_extend (h : Heap) (ext : List HObj) (a : Nat)
    (ha : a < h.length) : heapGet (h ++ ext) a = heapGet h a := by
  unfold heapGet
  exact List.get?_append ha

/-- Computable reformulation of heap closedness. -/
theorem heapWF_iff (h : Heap) :
    heapWF h ↔ (h.all (fun o => (refsOf o).all (fun r => decide (r < h.length)))) = true := by
  unfold heapWF
  simp [List.all_eq_true]

/-- Dereferencing sees only the cells reachable inside the closed prefix:
two heaps agreeing below `h.length` dereference closed addresses
identically. -/
theorem derefVal_agree (h h2 : Heap) (hwf : heapWF h)
    (hagree : ∀ a, a < h.length → heapGet h2 a = heapGet h a) :
    ∀ (fuel a : Nat), a < h.length → derefVal h2 fuel a = derefVal h fuel a := by
  intro fuel
  induction fuel with
  | zero => intro a _; rfl
  | succ n ih =>
      intro a ha
      unfold derefVal
      rw [hagree a ha]
      cases hg : heapGet h a with
      | none => rfl
      | some o =>
          cases o with
          | hstr s => rfl
          | hint m => rfl
          | hbool b => rfl
          | hnull => rfl
          | hdict entries =>
              have hmem : HObj.hdict entries ∈ h := List.get?_mem hg
              have hrefs : ∀ p ∈ entries, p.2 < h.length := by
                intro p hp
                exact hwf _ hmem p.2 (List.mem_map_of_mem Prod.snd hp)
              have hcongr := mapM_option_congr
                (fun p => (derefVal h2 n p.2).map (fun v => (p.1, v)))
                (fun p => (derefVal h n p.2).map (fun v => (p.1, v)))
                entries
                (fun p hp => by
                  show (derefVal h2 n p.2).map (fun v => (p.1, v))
                      = (derefVal h n p.2).map (fun v => (p.1, v))
                  rw [ih p.2 (hrefs p hp)])
              show ((entries.mapM (fun p => (derefVal h2 n p.2).map (fun v => (p.1, v)))).map
                  Value.vdict)
                = ((entries.mapM (fun p => (derefVal h n p.2).map (fun v => (p.1, v)))).map
                  Value.vdict)
              rw [hcongr]

/-- C7 amended: `get_section` and `get_all` return a FRESH dict object (a
shallow copy, the empty dict when the section is absent): the copy lives
at a fresh address, and a caller ASSIGNING A KEY OF THE COPY ITSELF never
changes the tree the store dereferences — but the copy's entries still
point at the store's own child objects, so mutating a mapping NESTED in
the copy does reach the store (see the counterexample). -/
theorem c7_amended (h : Heap) (root : Nat) (sect : String)
    (hwf : heapWF h) (hroot : root < h.length) :
    (∀ h1 a1, heap_get_section h root sect = some (h1, a1) →
      a1 = h.length ∧
      (∀ fuel, derefVal h1 fuel root = derefVal h fuel root) ∧
      (∀ (k : String) (o : HObj) (fuel : Nat),
        derefVal (heap_assign h1 a1 k o) fuel root = derefVal h fuel root)) ∧
    (∀ h1 a1, heap_get_all h root = some (h1, a1) →
      a1 = h.length ∧
      (∀ fuel, derefVal h1 fuel root = derefVal h fuel root) ∧
      (∀ (k : String) (o : HObj) (fuel : Nat),
        derefVal (heap_assign h1 a1 k o) fuel root = derefVal h fuel root)) := by
  have hcopy : ∀ entries : List (String × Nat),
      (∀ fuel, derefVal (h ++ [HObj.hdict entries]) fuel root = derefVal h fuel root) ∧
      (∀ (k : String) (o : HObj) (fuel : Nat),
        derefVal (heap_assign (h ++ [HObj.hdict entries]) h.length k o) fuel root
          = derefVal h fuel root) := by
    intro entries
    constructor
    · intro fuel
      exact derefVal_agree h _ hwf
        (fun a ha => heapGet_extend h [HObj.hdict entries] a ha) fuel root hroot
    · intro k o fuel
      have hgetcopy : heapGet ((h ++ [HObj.hdict entries]) ++ [o]) h.length
          = some (HObj.hdict entries) := by
        unfold heapGet
        rw [List.get?_append (by simp)]
        rw [List.get?_append_right (Nat.le_refl _)]
        simp
      simp only [heap_assign, hgetcopy]
      apply derefVal_agree h _ hwf _ fuel root hroot
      intro a ha
      have hre : ((h ++ [HObj.hdict entries]) ++ [o]) = h ++ [HObj.hdict entries, o] := by
        simp
      show heapGet (((h ++ [HObj.hdict entries]) ++ [o]).set h.length
        (HObj.hdict (assocSet entries k (h ++ [HObj.hdict entries]).length))) a = heapGet h a
      rw [hre]
      exact heapGet_extend_set h [HObj.hdict entries, o] _ a ha
  constructor
  · intro h1 a1 hsec
    unfold heap_get_section at hsec
    cases hg : heapGet h root with
    | none => rw [hg] at hsec; cases hsec
    | some o =>
        rw [hg] at hsec
        cases o with
        | hdict entries =>
            have hsec2 : (match entries.find? (fun p => p.1 = sect) with
              | some p =>
                  match heapGet h p.2 with
                  | some (.hdict sub) => some (h ++ [HObj.hdict sub], h.length)
                  | _ => none
              | none => some (h ++ [HObj.hdict []], h.length)) = some (h1, a1) := hsec
            cases hf : entries.find? (fun p => p.1 = sect) with
            | some p =>
                rw [hf] at hsec2
                have hsec3 : (match heapGet h p.2 with
                  | some (.hdict sub) => some (h ++ [HObj.hdict sub], h.length)
                  | _ => none) = some (h1, a1) := hsec2
                cases hgc : heapGet h p.2 with
                | none => rw [hgc] at hsec3; cases hsec3
                | some oc =>
                    rw [hgc] at hsec3
                    cases oc with
                    | hdict sub =>
                        have h12 := Option.some.inj hsec3
                        have he : h1 = h ++ [HObj.hdict sub] :=
                          (congrArg Prod.fst h12).symm
                        have ha : a1 = h.length := (congrArg Prod.snd h12).symm
                        subst he
                        subst ha
                        exact ⟨rfl, (hcopy sub).1, (hcopy sub).2⟩
                    | hstr s => cases hsec3
                    | hint m => cases hsec3
                    | hbool b => cases hsec3
                    | hnull => cases hsec3
            | none =>
                rw [hf] at hsec2
                have h12 := Option.some.inj hsec2
                have he : h1 = h ++ [HObj.hdict []] :=
                  (congrArg Prod.fst h12).symm
                have ha : a1 = h.length := (congrArg Prod.snd h12).symm
                subst he
                subst ha
                exact ⟨rfl, (hcopy []).1, (hcopy []).2⟩
        | hstr s => cases hsec
        | hint m => cases hsec
        | hbool b => cases hsec
        | hnull => cases hsec
  · intro h1 a1 hall
    unfold heap_get_all at hall
    cases hg : heapGet h root with
    | none => rw [hg] at hall; cases hall
    | some o =>
        rw [hg] at hall
        cases o with
        | hdict entries =>
            have h12 := Option.some.inj hall
            have he : h1 = h ++ [HObj.hdict entries] :=
              (congrArg Prod.fst h12).symm
            have ha : a1 = h.length := (congrArg Prod.snd h12).symm
            subst he
            subst ha
            exact ⟨rfl, (hcopy entries).1, (hcopy entries).2⟩
        | hstr s => cases hall
        | hint m => cases hall
        | hbool b => cases hall
        | hnull => cases hall

/-- C7 as stated is false: `get_section` returns a SHALLOW copy, so
mutating a mapping nested inside the returned copy mutates the store.
Heap: root dict 0 = `{"s": @1}`, 1 = `{"sub": @2}`, 2 = `{"k": @3}`,
3 = `5`.  The copy of section `s` is the fresh node 4 sharing child
address 2; assigning `copy["sub"]["k"] = 7` rewrites node 2, and the tree
dereferenced from the store's root changes from `k = 5` to `k = 7`. -/
theorem c7_counterexample :
    heap_get_section
        [HObj.hdict [("s", 1)], HObj.hdict [("sub", 2)], HObj.hdict [("k", 3)],
          HObj.hint 5] 0 "s"
      = some ([HObj.hdict [("s", 1)], HObj.hdict [("sub", 2)], HObj.hdict [("k", 3)],
          HObj.hint 5, HObj.hdict [("sub", 2)]], 4) ∧
    heap_index
        [HObj.hdict [("s", 1)], HObj.hdict [("sub", 2)], HObj.hdict [("k", 3)],
          HObj.hint 5, HObj.hdict [("sub", 2)]] 4 "sub" = some 2 ∧
    derefVal
        [HObj.hdict [("s", 1)], HObj.hdict [("sub", 2)], HObj.hdict [("k", 3)],
          HObj.hint 5] 10 0
      = some (Value.vdict [("s", Value.vdict [("sub", Value.vdict [("k", Value.vint 5)])])]) ∧
    derefVal
        (heap_assign
          [HObj.hdict [("s", 1)], HObj.hdict [("sub", 2)], HObj.hdict [("k", 3)],
            HObj.hint 5, HObj.hdict [("sub", 2)]] 2 "k" (HObj.hint 7)) 10 0
      = some (Value.vdict [("s", Value.vdict [("sub", Value.vdict [("k", Value.vint 7)])])]) ∧
    ¬ ((Value.vint 7 : Value) = Value.vint 5) := by
  refine ⟨rfl, rfl, rfl, rfl, ?_⟩
  intro hcontra
  cases hcontra

/-- C7 amended, witnessed on the counterexample heap: the copy node is
fresh, copying changes nothing, and assigning a key of the copy itself
leaves the store's tree intact. -/
theorem c7_amended_witness :
    derefVal
        ([HObj.hdict [("s", 1)], HObj.hdict [("sub", 2)], HObj.hdict [("k", 3)],
          HObj.hint 5] ++ [HObj.hdict [("sub", 2)]]) 10 0
      = derefVal
        [HObj.hdict [("s", 1)], HObj.hdict [("sub", 2)], HObj.hdict [("k", 3)],
          HObj.hint 5] 10 0 ∧
    derefVal
        (heap_assign
          ([HObj.hdict [("s", 1)], HObj.hdict [("sub", 2)], HObj.hdict [("k", 3)],
            HObj.hint 5] ++ [HObj.hdict [("sub", 2)]]) 4 "x" (HObj.hint 9)) 10 0
      = derefVal
        [HObj.hdict [("s", 1)], HObj.hdict [("sub", 2)], HObj.hdict [("k", 3)],
          HObj.hint 5] 10 0 := by
  have h := (c7_amended
    [HObj.hdict [("s", 1)], HObj.hdict [("sub", 2)], HObj.hdict [("k", 3)],
      HObj.hint 5] 0 "s"
    ((heapWF_iff _).mpr (by decide))
    (by decide)).1
    ([HObj.hdict [("s", 1)], HObj.hdict [("sub", 2)], HObj.hdict [("k", 3)],
      HObj.hint 5] ++ [HObj.hdict [("sub", 2)]]) 4 rfl
  exact ⟨h.2.1 10, h.2.2 "x" (HObj.hint 9) 10⟩

/-- C10 amended, witnessed: a JSON store with `None` stored at `a` both at
top level and inside a section returns the caller default. -/
theorem c10_amended_witness :
    get ⟨[("a", Value.vnull), ("s", Value.vdict [("a", Value.vnull)])],
        some "app.json", some FileType.json, true⟩ "a" (Value.vstr "d") none
      (some TypeTarget.tBool) = Except.ok (Value.vstr "d") :=
  c10_amended [("a", Value.vnull), ("s", Value.vdict [("a", Value.vnull)])] "a"
    (Value.vstr "d") none (some FileType.json) true (some "app.json")
    (some TypeTarget.tBool) (by decide)


/-! Merge toolkit lemmas for claims C1 and C2. -/

/-- A found entry is still found after appending on the right. -/
theorem dictGet_append_left (d e : Dict) (k : String) (w : Value)
    (h : dictGet d k = some w) : dictGet (d ++ e) k = some w := by
  unfold dictGet at h ⊢
  rw [List.find?_append]
  cases hf : d.find? (fun p => p.1 = k) with
  | none => rw [hf] at h; cases h
  | some p =>
      rw [hf] at h
      simpa using h

/-- Reading a freshly appended key that was absent before. -/
theorem dictGet_append_fresh (d : Dict) (x : String) (v0 : Value)
    (h : dictGet d x = none) : dictGet (d ++ [(x, v0)]) x = some v0 := by
  unfold dictGet at h ⊢
  rw [List.find?_append]
  cases hf : d.find? (fun p => p.1 = x) with
  | some p => rw [hf] at h; cases h
  | none => simp [List.find?]

/-- Reading an unrelated key through a single-entry append. -/
theorem dictGet_append_ne (d : Dict) (x : String) (v0 : Value) (k : String)
    (hne : ¬ k = x) : dictGet (d ++ [(x, v0)]) k = dictGet d k := by
  unfold dictGet
  rw [List.find?_append]
  have hsingle : List.find? (fun p => p.1 = k) [(x, v0)] = none := by
    simp [List.find?, show ¬ (x = k) from fun h => hne h.symm]
  cases hf : d.find? (fun p => p.1 = k) <;> simp [hsingle]

/-- Case-insensitive existence distributes over append. -/
theorem keyExistsCI_append (d e : Dict) (k : String) :
    keyExistsCI (d ++ e) k = (keyExistsCI d k || keyExistsCI e k) := by
  unfold keyExistsCI
  exact List.any_append

/-- Looking a lower-cased key up case-insensitively is the same as looking
the original up. -/
theorem keyExistsCI_strLower (d : Dict) (k : String) :
    keyExistsCI d (strLower k) = keyExistsCI d k := by
  unfold keyExistsCI
  congr 1
  funext p
  rw [strLower_idem]

/-- Case-insensitive existence is the success of the first-match scan. -/
theorem keyExistsCI_eq_find? (d : Dict) (k : String) :
    keyExistsCI d k
      = (d.find? (fun p => strLower p.1 = strLower k)).isSome := by
  induction d with
  | nil => rfl
  | cons p rest ih =>
      unfold keyExistsCI at ih ⊢
      rw [List.any_cons, List.find?_cons]
      by_cases hp : strLower p.1 = strLower k <;> simp [hp, ih]

/-- A case-insensitively absent key is exactly absent once lower-cased, so
the write appends. -/
theorem dictSet_append_of_ci_absent (d : Dict) (k : String) (v : Value)
    (h : keyExistsCI d k = false) :
    dictSet d (strLower k) v = d ++ [(strLower k, v)] := by
  unfold dictSet
  rw [if_neg]
  intro hany
  rw [List.any_eq_true] at hany
  obtain ⟨p, hp, hpk⟩ := hany
  simp only [decide_eq_true_eq] at hpk
  have hci : keyExistsCI d k = true := by
    unfold keyExistsCI
    rw [List.any_eq_true]
    exact ⟨p, hp, by simp [hpk, strLower_idem]⟩
  rw [h] at hci
  cases hci

/-- The first case-insensitive match determines the exact read of its key:
no earlier entry can carry that exact key, as it would match first. -/
theorem dictGet_of_find_ci (d : Dict) (k a : String) (w : Value)
    (h : d.find? (fun p => strLower p.1 = strLower k) = some (a, w)) :
    dictGet d a = some w := by
  induction d with
  | nil => cases h
  | cons p rest ih =>
      rw [List.find?_cons] at h
      by_cases hp : strLower p.1 = strLower k
      · simp only [hp, decide_True] at h
        have hp2 : p = (a, w) := by simpa using h
        rw [dictGet_cons, hp2]
        simp
      · simp only [hp, decide_False] at h
        have hrest : rest.find? (fun p => strLower p.1 = strLower k) = some (a, w) := h
        have hak : strLower a = strLower k := by
          have hps := List.find?_some hrest
          simpa using hps
        have hpa : ¬ p.1 = a := by
          intro hpa
          apply hp
          rw [hpa]
          exact hak
        rw [dictGet_cons, if_neg hpa]
        exact ih hrest

/-- Rewriting the value under the first case-insensitive match's key. -/
theorem find_ci_dictSet_self (d : Dict) (k a : String) (w v : Value)
    (h : d.find? (fun p => strLower p.1 = strLower k) = some (a, w)) :
    (dictSet d a v).find? (fun p => strLower p.1 = strLower k) = some (a, v) := by
  induction d with
  | nil => cases h
  | cons p rest ih =>
      rw [List.find?_cons] at h
      rw [dictSet_cons]
      by_cases hm : strLower p.1 = strLower k
      · simp only [hm, decide_True] at h
        have hp2 : p = (a, w) := by simpa using h
        have hp1 : p.1 = a := by rw [hp2]
        rw [if_pos hp1, List.find?_cons]
        simp only [hm, decide_True]
        rw [hp1]
      · simp only [hm, decide_False] at h
        have hrest : rest.find? (fun p => strLower p.1 = strLower k) = some (a, w) := h
        have hak : strLower a = strLower k := by
          have hps := List.find?_some hrest
          simpa using hps
        have hpa : ¬ p.1 = a := by
          intro hpa
          apply hm
          rw [hpa]
          exact hak
        rw [if_neg hpa, List.find?_cons]
        simp only [hm, decide_False]
        exact ih hrest

/-- Writing under a different exact key (replacement form) leaves the
first case-insensitive match untouched. -/
theorem find_ci_map_set_other (d : Dict) (k a b : String) (w u : Value)
    (hba : ¬ b = a)
    (h : d.find? (fun p => strLower p.1 = strLower k) = some (a, w)) :
    (d.map (fun q => if q.1 = b then (q.1, u) else q)).find?
        (fun p => strLower p.1 = strLower k) = some (a, w) := by
  induction d with
  | nil => cases h
  | cons p rest ih =>
      rw [List.find?_cons] at h
      rw [List.map_cons, List.find?_cons]
      by_cases hm : strLower p.1 = strLower k
      · simp only [hm, decide_True] at h
        have hp2 : p = (a, w) := by simpa using h
        have hp1 : p.1 = a := by rw [hp2]
        have hpb : ¬ p.1 = b := by
          rw [hp1]
          intro hc
          exact hba hc.symm
        rw [if_neg hpb]
        simp only [hm, decide_True]
        exact congrArg some hp2
      · simp only [hm, decide_False] at h
        by_cases hpb : p.1 = b
        · rw [if_pos hpb]
          have hm2 : ¬ strLower (p.1, u).1 = strLower k := hm
          simp only [hm2, decide_False]
          exact ih h
        · rw [if_neg hpb]
          simp only [hm, decide_False]
          exact ih h

/-- Writing under a different exact key leaves the first case-insensitive
match untouched. -/
theorem find_ci_dictSet_other (d : Dict) (k a b : String) (w u : Value)
    (hba : ¬ b = a)
    (h : d.find? (fun p => strLower p.1 = strLower k) = some (a, w)) :
    (dictSet d b u).find? (fun p => strLower p.1 = strLower k) = some (a, w) := by
  unfold dictSet
  by_cases hd : d.any (fun p => p.1 = b)
  · rw [if_pos hd]
    exact find_ci_map_set_other d k a b w u hba h
  · rw [if_neg hd]
    rw [List.find?_append, h]
    rfl


/-- The force-add loop only appends: the result is the input followed by
entries with lower-cased keys, each case-insensitively new at its
insertion point (hence new for the whole input), each carrying some
defaults entry's value verbatim. -/
theorem mergeForceLoop_shape (sub : Dict) : ∀ s : Dict,
    ∃ ext, mergeForceLoop s sub = s ++ ext ∧
      ∀ p ∈ ext, p.1 = strLower p.1 ∧ keyExistsCI s p.1 = false ∧
        ∃ q ∈ sub, p.1 = strLower q.1 ∧ p.2 = q.2 := by
  induction sub with
  | nil =>
      intro s
      exact ⟨[], by simp [mergeForceLoop], by simp⟩
  | cons q rest ih =>
      intro s
      show ∃ ext,
        mergeForceLoop
          (if keyExistsCI s q.1 then s else dictSet s (strLower q.1) q.2) rest
          = s ++ ext ∧ _
      by_cases hq : keyExistsCI s q.1
      · rw [if_pos hq]
        obtain ⟨ext, he, hp⟩ := ih s
        refine ⟨ext, he, ?_⟩
        intro p hpe
        obtain ⟨h1, h2, qq, hqq, h3⟩ := hp p hpe
        exact ⟨h1, h2, qq, by simp [hqq], h3⟩
      · rw [if_neg hq]
        rw [dictSet_append_of_ci_absent s q.1 q.2 (by simpa using hq)]
        obtain ⟨ext, he, hp⟩ := ih (s ++ [(strLower q.1, q.2)])
        refine ⟨(strLower q.1, q.2) :: ext, by rw [he]; simp, ?_⟩
        intro p hpe
        rcases List.mem_cons.mp hpe with heq | hpe2
        · rw [heq]
          refine ⟨by rw [strLower_idem], ?_, q, by simp, by rfl, by rfl⟩
          show keyExistsCI s (strLower q.1) = false
          rw [keyExistsCI_strLower]
          simpa using hq
        · obtain ⟨h1, h2, qq, hqq, h3⟩ := hp p hpe2
          refine ⟨h1, ?_, qq, by simp [hqq], h3⟩
          rw [keyExistsCI_append] at h2
          simpa using (Bool.or_eq_false_iff.mp h2).1

/-- The force-add loop preserves case-insensitive existence. -/
theorem mergeForceLoop_ci_mono (sub : Dict) : ∀ (s : Dict) (k : String),
    keyExistsCI s k = true → keyExistsCI (mergeForceLoop s sub) k = true := by
  induction sub with
  | nil => intro s k h; exact h
  | cons q rest ih =>
      intro s k h
      show keyExistsCI (mergeForceLoop
        (if keyExistsCI s q.1 then s else dictSet s (strLower q.1) q.2) rest) k = true
      by_cases hq : keyExistsCI s q.1
      · rw [if_pos hq]
        exact ih s k h
      · rw [if_neg hq]
        exact ih _ k (keyExistsCI_dictSet_mono s k (strLower q.1) q.2 h)

/-- After the force-add loop every defaults key exists case-insensitively. -/
theorem mergeForceLoop_all_ci (sub : Dict) : ∀ s : Dict,
    ∀ q ∈ sub, keyExistsCI (mergeForceLoop s sub) q.1 = true := by
  induction sub with
  | nil => intro s q hq; cases hq
  | cons q0 rest ih =>
      intro s q hq
      show keyExistsCI (mergeForceLoop
        (if keyExistsCI s q0.1 then s else dictSet s (strLower q0.1) q0.2) rest) q.1 = true
      by_cases hq0 : keyExistsCI s q0.1
      · rw [if_pos hq0]
        rcases List.mem_cons.mp hq with heq | hq2
        · rw [heq]
          exact mergeForceLoop_ci_mono rest s q0.1 hq0
        · exact ih s q hq2
      · rw [if_neg hq0]
        rcases List.mem_cons.mp hq with heq | hq2
        · rw [heq]
          exact mergeForceLoop_ci_mono rest _ q0.1
            (keyExistsCI_dictSet_lower s q0.1 q0.2)
        · exact ih _ q hq2

/-- A force-add over defaults that all exist already is the identity. -/
theorem mergeForceLoop_id (sub : Dict) : ∀ s : Dict,
    (∀ q ∈ sub, keyExistsCI s q.1 = true) → mergeForceLoop s sub = s := by
  induction sub with
  | nil => intro s _; rfl
  | cons q rest ih =>
      intro s h
      show mergeForceLoop
        (if keyExistsCI s q.1 then s else dictSet s (strLower q.1) q.2) rest = s
      rw [if_pos (h q (by simp))]
      exact ih s (fun q2 hq2 => h q2 (by simp [hq2]))


/-- An exactly-present key makes the membership scan succeed. -/
theorem dictGet_isSome_any (d : Dict) (x : String)
    (h : (dictGet d x).isSome = true) : d.any (fun p => p.1 = x) = true := by
  induction d with
  | nil => cases h
  | cons p rest ih =>
      rw [dictGet_cons] at h
      rw [List.any_cons]
      by_cases hp : p.1 = x
      · simp [hp]
      · rw [if_neg hp] at h
        simp [hp, ih h]

/-- An exactly-absent key makes the membership scan fail. -/
theorem dictGet_none_any (d : Dict) (x : String)
    (h : dictGet d x = none) : d.any (fun p => p.1 = x) = false := by
  induction d with
  | nil => rfl
  | cons p rest ih =>
      rw [dictGet_cons] at h
      rw [List.any_cons]
      by_cases hp : p.1 = x
      · rw [if_pos hp] at h; cases h
      · rw [if_neg hp] at h
        simp [hp, ih h]

/-- An exactly-absent key makes the write an append. -/
theorem dictSet_append_of_absent (d : Dict) (x : String) (v : Value)
    (h : dictGet d x = none) : dictSet d x v = d ++ [(x, v)] := by
  unfold dictSet
  rw [dictGet_none_any d x h]
  simp

/-- Reduction of the merge's loop body on a non-dict value (the `general`
bucket branch). -/
theorem mergeTopEntry_scalar_eq (m : Dict) (key : String) (value : Value)
    (hnd : ∀ sub, ¬ value = Value.vdict sub) :
    mergeTopEntry m key value =
      (let merged1 := if (dictGet m "general").isSome then m
                      else dictSet m "general" (Value.vdict [])
       match dictGet merged1 "general" with
       | some (.vdict g) =>
           some (if keyExistsCI g key then merged1
                 else dictSet merged1 "general"
                   (Value.vdict (dictSet g (strLower key) value)))
       | _ => none) := by
  cases value with
  | vdict sub => exact absurd rfl (hnd sub)
  | vstr s => rfl
  | vint n => rfl
  | vbool b => rfl
  | vnull => rfl

/-- Shape of a successful scalar (non-dict) merge step. -/
theorem mergeTopEntry_shape_scalar (m : Dict) (key : String) (value : Value)
    (m2 : Dict) (hnd : ∀ sub, ¬ value = Value.vdict sub)
    (h : (let merged1 := if (dictGet m "general").isSome then m
                         else dictSet m "general" (Value.vdict [])
          match dictGet merged1 "general" with
          | some (.vdict g) =>
              some (if keyExistsCI g key then merged1
                    else dictSet merged1 "general"
                      (Value.vdict (dictSet g (strLower key) value)))
          | _ => none) = some m2) :
    ∃ base : Dict,
      (base = m ∨
        ((∃ sub, value = Value.vdict sub) ∧ keyExistsCI m key = false ∧
          base = m ++ [(strLower key, Value.vdict [])]) ∨
        ((∀ sub, ¬ value = Value.vdict sub) ∧ dictGet m "general" = none ∧
          base = m ++ [("general", Value.vdict [])])) ∧
      (m2 = base ∨
        ∃ b s1 ext, dictGet base b = some (Value.vdict s1) ∧
          (∀ p ∈ ext, p.1 = strLower p.1 ∧ keyExistsCI s1 p.1 = false) ∧
          m2 = dictSet base b (Value.vdict (s1 ++ ext))) := by
  by_cases hgen : (dictGet m "general").isSome
  · simp only [if_pos hgen] at h
    refine ⟨m, Or.inl rfl, ?_⟩
    cases hget : dictGet m "general" with
    | none => rw [hget] at h; cases h
    | some w =>
        rw [hget] at h
        cases w with
        | vdict g =>
            have h3 : some (if keyExistsCI g key then m
                else dictSet m "general"
                  (Value.vdict (dictSet g (strLower key) value))) = some m2 := h
            by_cases hkg : keyExistsCI g key
            · rw [if_pos hkg] at h3
              exact Or.inl (Option.some.inj h3).symm
            · rw [if_neg hkg] at h3
              have happ : dictSet g (strLower key) value
                  = g ++ [(strLower key, value)] :=
                dictSet_append_of_ci_absent g key value (by simpa using hkg)
              refine Or.inr ⟨"general", g, [(strLower key, value)], hget, ?_, ?_⟩
              · intro p hp
                rcases List.mem_cons.mp hp with heq | hpe
                · rw [heq]
                  refine ⟨by rw [strLower_idem], ?_⟩
                  show keyExistsCI g (strLower key) = false
                  rw [keyExistsCI_strLower]
                  simpa using hkg
                · cases hpe
              · rw [← happ]
                exact (Option.some.inj h3).symm
        | vstr s => cases h
        | vint n => cases h
        | vbool b => cases h
        | vnull => cases h
  · have hnone : dictGet m "general" = none := by
      cases hg2 : dictGet m "general" with
      | none => rfl
      | some w => rw [hg2] at hgen; simp at hgen
    simp only [if_neg hgen] at h
    have happ0 : dictSet m "general" (Value.vdict [])
        = m ++ [("general", Value.vdict [])] :=
      dictSet_append_of_absent m "general" (Value.vdict []) hnone
    rw [happ0] at h
    have hget : dictGet (m ++ [("general", Value.vdict [])]) "general"
        = some (Value.vdict []) :=
      dictGet_append_fresh m "general" (Value.vdict []) hnone
    rw [hget] at h
    have h2 : some (dictSet (m ++ [("general", Value.vdict [])]) "general"
        (Value.vdict [(strLower key, value)])) = some m2 := h
    refine ⟨m ++ [("general", Value.vdict [])],
      Or.inr (Or.inr ⟨hnd, hnone, rfl⟩), ?_⟩
    refine Or.inr ⟨"general", [], [(strLower key, value)], hget, ?_, ?_⟩
    · intro p hp
      rcases List.mem_cons.mp hp with heq | hpe
      · rw [heq]
        exact ⟨by rw [strLower_idem], rfl⟩
      · cases hpe
    · exact (Option.some.inj h2).symm


/-- Shape of one successful merge-loop step: the tree is first possibly
extended by one fresh entry (a new empty section under the lower-cased
key, or the exact `general` bucket), and then at most one existing
dict-valued entry is replaced by an extension of itself with lower-cased,
case-insensitively new entries. -/
theorem mergeTopEntry_shape (m : Dict) (key : String) (value : Value) (m2 : Dict)
    (h : mergeTopEntry m key value = some m2) :
    ∃ base : Dict,
      (base = m ∨
        ((∃ sub, value = Value.vdict sub) ∧ keyExistsCI m key = false ∧
          base = m ++ [(strLower key, Value.vdict [])]) ∨
        ((∀ sub, ¬ value = Value.vdict sub) ∧ dictGet m "general" = none ∧
          base = m ++ [("general", Value.vdict [])])) ∧
      (m2 = base ∨
        ∃ b s1 ext, dictGet base b = some (Value.vdict s1) ∧
          (∀ p ∈ ext, p.1 = strLower p.1 ∧ keyExistsCI s1 p.1 = false) ∧
          m2 = dictSet base b (Value.vdict (s1 ++ ext))) := by
  cases value with
  | vdict sub =>
      simp only [mergeTopEntry] at h
      by_cases hci : keyExistsCI m key
      · rw [if_pos hci] at h
        refine ⟨m, Or.inl rfl, ?_⟩
        cases hget : dictGet m ((findKeyCI m key).getD (strLower key)) with
        | none =>
            rw [hget] at h
            have h3 : (none : Option Dict) = some m2 := h
            cases h3
        | some w =>
            rw [hget] at h
            cases w with
            | vdict s =>
                have h3 : some (dictSet m ((findKeyCI m key).getD (strLower key))
                    (Value.vdict (mergeForceLoop s sub))) = some m2 := h
                obtain ⟨ext, he, hp⟩ := mergeForceLoop_shape sub s
                refine Or.inr ⟨(findKeyCI m key).getD (strLower key), s, ext, hget,
                  fun p hp2 => ⟨(hp p hp2).1, (hp p hp2).2.1⟩, ?_⟩
                rw [← he]
                exact (Option.some.inj h3).symm
            | vstr s =>
                have h3 : (none : Option Dict) = some m2 := h
                cases h3
            | vint n =>
                have h3 : (none : Option Dict) = some m2 := h
                cases h3
            | vbool b =>
                have h3 : (none : Option Dict) = some m2 := h
                cases h3
            | vnull =>
                have h3 : (none : Option Dict) = some m2 := h
                cases h3
      · rw [if_neg hci] at h
        rw [dictSet_append_of_ci_absent m key (Value.vdict [])
          (by simpa using hci)] at h
        refine ⟨m ++ [(strLower key, Value.vdict [])],
          Or.inr (Or.inl ⟨⟨sub, rfl⟩, by simpa using hci, rfl⟩), ?_⟩
        cases hget : dictGet (m ++ [(strLower key, Value.vdict [])])
            ((findKeyCI (m ++ [(strLower key, Value.vdict [])]) key).getD
              (strLower key)) with
        | none =>
            rw [hget] at h
            have h3 : (none : Option Dict) = some m2 := h
            cases h3
        | some w =>
            rw [hget] at h
            cases w with
            | vdict s =>
                have h3 : some (dictSet (m ++ [(strLower key, Value.vdict [])])
                    ((findKeyCI (m ++ [(strLower key, Value.vdict [])]) key).getD
                      (strLower key))
                    (Value.vdict (mergeForceLoop s sub))) = some m2 := h
                obtain ⟨ext, he, hp⟩ := mergeForceLoop_shape sub s
                refine Or.inr ⟨(findKeyCI (m ++ [(strLower key, Value.vdict [])]) key).getD
                    (strLower key), s, ext, hget,
                  fun p hp2 => ⟨(hp p hp2).1, (hp p hp2).2.1⟩, ?_⟩
                rw [← he]
                exact (Option.some.inj h3).symm
            | vstr s =>
                have h3 : (none : Option Dict) = some m2 := h
                cases h3
            | vint n =>
                have h3 : (none : Option Dict) = some m2 := h
                cases h3
            | vbool b =>
                have h3 : (none : Option Dict) = some m2 := h
                cases h3
            | vnull =>
                have h3 : (none : Option Dict) = some m2 := h
                cases h3
  | vstr sv =>
      rw [mergeTopEntry_scalar_eq m key (Value.vstr sv) (fun sub hc => by cases hc)] at h
      exact mergeTopEntry_shape_scalar m key (Value.vstr sv) m2
        (fun sub hc => by cases hc) h
  | vint sv =>
      rw [mergeTopEntry_scalar_eq m key (Value.vint sv) (fun sub hc => by cases hc)] at h
      exact mergeTopEntry_shape_scalar m key (Value.vint sv) m2
        (fun sub hc => by cases hc) h
  | vbool sv =>
      rw [mergeTopEntry_scalar_eq m key (Value.vbool sv) (fun sub hc => by cases hc)] at h
      exact mergeTopEntry_shape_scalar m key (Value.vbool sv) m2
        (fun sub hc => by cases hc) h
  | vnull =>
      rw [mergeTopEntry_scalar_eq m key Value.vnull (fun sub hc => by cases hc)] at h
      exact mergeTopEntry_shape_scalar m key Value.vnull m2
        (fun sub hc => by cases hc) h


/-- A case-insensitively absent key is exactly absent under lower-casing. -/
theorem dictGet_strLower_none_of_ci_absent (m : Dict) (key : String)
    (h : keyExistsCI m key = false) : dictGet m (strLower key) = none := by
  cases hget : dictGet m (strLower key) with
  | none => rfl
  | some w =>
      exfalso
      have hany := dictGet_isSome_any m (strLower key) (by rw [hget]; rfl)
      rw [List.any_eq_true] at hany
      obtain ⟨p, hp, hpk⟩ := hany
      simp only [decide_eq_true_eq] at hpk
      have hci : keyExistsCI m key = true := by
        unfold keyExistsCI
        rw [List.any_eq_true]
        exact ⟨p, hp, by simp [hpk, strLower_idem]⟩
      rw [h] at hci
      cases hci

/-- The saturated-`general` condition survives appending a fresh entry. -/
theorem generalDone_append (m : Dict) (k x : String) (v0 : Value)
    (hdone : (match dictGet m "general" with
      | some (.vdict g) => keyExistsCI g k
      | _ => false) = true)
    (hx : dictGet m x = none) :
    (match dictGet (m ++ [(x, v0)]) "general" with
      | some (.vdict g) => keyExistsCI g k
      | _ => false) = true := by
  cases hget : dictGet m "general" with
  | none => rw [hget] at hdone; cases hdone
  | some w =>
      rw [hget] at hdone
      have hxg : ¬ ("general" : String) = x := by
        intro he
        rw [← he] at hx
        rw [hx] at hget
        cases hget
      rw [dictGet_append_ne m x v0 "general" hxg, hget]
      exact hdone

/-- The saturated-`general` condition survives extending any dict-valued
entry in place. -/
theorem generalDone_extend (m : Dict) (k b : String) (s1 ext : Dict)
    (hdone : (match dictGet m "general" with
      | some (.vdict g) => keyExistsCI g k
      | _ => false) = true)
    (hget : dictGet m b = some (Value.vdict s1)) :
    (match dictGet (dictSet m b (Value.vdict (s1 ++ ext))) "general" with
      | some (.vdict g) => keyExistsCI g k
      | _ => false) = true := by
  by_cases hbg : b = "general"
  · subst hbg
    rw [dictGet_dictSet_self]
    cases hget0 : dictGet m "general" with
    | none => rw [hget0] at hdone; cases hdone
    | some w =>
        rw [hget0] at hdone
        cases w with
        | vdict g =>
            rw [hget0] at hget
            have hgs : g = s1 := by
              have hinj := Option.some.inj hget
              cases hinj
              rfl
            subst hgs
            have hci : keyExistsCI g k = true := hdone
            show keyExistsCI (g ++ ext) k = true
            rw [keyExistsCI_append, hci]
            rfl
        | vstr s => cases hdone
        | vint n => cases hdone
        | vbool b2 => cases hdone
        | vnull => cases hdone
  · rw [dictGet_dictSet_ne m b "general" _ (fun he => hbg he.symm)]
    exact hdone

/-- The saturated-section condition survives appending a fresh entry. -/
theorem findDone_append (m : Dict) (k : String) (sub : Dict) (x : String) (v0 : Value)
    (hdone : (match m.find? (fun p => strLower p.1 = strLower k) with
      | some p =>
          match p.2 with
          | .vdict s => sub.all (fun q => keyExistsCI s q.1)
          | _ => false
      | none => false) = true) :
    (match (m ++ [(x, v0)]).find? (fun p => strLower p.1 = strLower k) with
      | some p =>
          match p.2 with
          | .vdict s => sub.all (fun q => keyExistsCI s q.1)
          | _ => false
      | none => false) = true := by
  cases hf : m.find? (fun p => strLower p.1 = strLower k) with
  | none => rw [hf] at hdone; cases hdone
  | some p =>
      rw [hf] at hdone
      rw [List.find?_append, hf]
      exact hdone

/-- The saturated-section condition survives extending any dict-valued
entry in place. -/
theorem findDone_extend (m : Dict) (k : String) (sub : Dict) (b : String)
    (s1 ext : Dict)
    (hdone : (match m.find? (fun p => strLower p.1 = strLower k) with
      | some p =>
          match p.2 with
          | .vdict s => sub.all (fun q => keyExistsCI s q.1)
          | _ => false
      | none => false) = true)
    (hget : dictGet m b = some (Value.vdict s1)) :
    (match (dictSet m b (Value.vdict (s1 ++ ext))).find?
        (fun p => strLower p.1 = strLower k) with
      | some p =>
          match p.2 with
          | .vdict s => sub.all (fun q => keyExistsCI s q.1)
          | _ => false
      | none => false) = true := by
  cases hf : m.find? (fun p => strLower p.1 = strLower k) with
  | none => rw [hf] at hdone; cases hdone
  | some p =>
      rw [hf] at hdone
      obtain ⟨a, w⟩ := p
      by_cases hba : b = a
      · subst hba
        have hgw : dictGet m b = some w := dictGet_of_find_ci m k b w hf
        rw [hget] at hgw
        have hw : w = Value.vdict s1 := (Option.some.inj hgw).symm
        subst hw
        have hf2 := find_ci_dictSet_self m k b (Value.vdict s1)
          (Value.vdict (s1 ++ ext)) hf
        rw [hf2]
        have hdone2 : sub.all (fun q => keyExistsCI s1 q.1) = true := hdone
        show sub.all (fun q => keyExistsCI (s1 ++ ext) q.1) = true
        rw [List.all_eq_true] at hdone2 ⊢
        intro q hq
        have hsq := hdone2 q hq
        simp only [decide_eq_true_eq] at hsq ⊢
        rw [keyExistsCI_append, hsq]
        rfl
      · have hf2 := find_ci_dictSet_other m k a b w (Value.vdict (s1 ++ ext)) hba hf
        rw [hf2]
        exact hdone

/-- A saturated defaults entry stays saturated after appending a fresh
entry at top level. -/
theorem entryDone_append (m : Dict) (k : String) (v : Value) (x : String)
    (v0 : Value) (hdone : entryDone m k v = true) (hx : dictGet m x = none) :
    entryDone (m ++ [(x, v0)]) k v = true := by
  cases v with
  | vdict sub => exact findDone_append m k sub x v0 hdone
  | vstr s => exact generalDone_append m k x v0 hdone hx
  | vint n => exact generalDone_append m k x v0 hdone hx
  | vbool b => exact generalDone_append m k x v0 hdone hx
  | vnull => exact generalDone_append m k x v0 hdone hx

/-- A saturated defaults entry stays saturated when a dict-valued entry is
extended in place. -/
theorem entryDone_extend (m : Dict) (k : String) (v : Value) (b : String)
    (s1 ext : Dict) (hdone : entryDone m k v = true)
    (hget : dictGet m b = some (Value.vdict s1)) :
    entryDone (dictSet m b (Value.vdict (s1 ++ ext))) k v = true := by
  cases v with
  | vdict sub => exact findDone_extend m k sub b s1 ext hdone hget
  | vstr s => exact generalDone_extend m k b s1 ext hdone hget
  | vint n => exact generalDone_extend m k b s1 ext hdone hget
  | vbool b2 => exact generalDone_extend m k b s1 ext hdone hget
  | vnull => exact generalDone_extend m k b s1 ext hdone hget

/-- A saturated defaults entry stays saturated across any further
successful merge step. -/
theorem entryDone_step (m : Dict) (k : String) (v : Value) (key : String)
    (value : Value) (m2 : Dict) (hdone : entryDone m k v = true)
    (h : mergeTopEntry m key value = some m2) : entryDone m2 k v = true := by
  obtain ⟨base, hbase, hop⟩ := mergeTopEntry_shape m key value m2 h
  have hdbase : entryDone base k v = true := by
    rcases hbase with heq | ⟨_, hci, heq⟩ | ⟨_, hnone, heq⟩
    · rw [heq]; exact hdone
    · rw [heq]
      exact entryDone_append m k v _ _ hdone
        (dictGet_strLower_none_of_ci_absent m key hci)
    · rw [heq]
      exact entryDone_append m k v _ _ hdone hnone
  rcases hop with heq | ⟨b, s1, ext, hget, _, heq⟩
  · rw [heq]; exact hdbase
  · rw [heq]
    exact entryDone_extend base k v b s1 ext hdbase hget


/-- A successful dict-valued merge step saturates its own entry. -/
theorem mergeTopEntry_done_dict (m : Dict) (key : String) (sub : Dict) (m2 : Dict)
    (h : mergeTopEntry m key (Value.vdict sub) = some m2) :
    entryDone m2 key (Value.vdict sub) = true := by
  simp only [mergeTopEntry] at h
  by_cases hci : keyExistsCI m key
  · rw [if_pos hci] at h
    have hfs : (m.find? (fun p => strLower p.1 = strLower key)).isSome = true := by
      rw [← keyExistsCI_eq_find?]
      exact hci
    cases hf : m.find? (fun p => strLower p.1 = strLower key) with
    | none => rw [hf] at hfs; cases hfs
    | some p =>
        obtain ⟨a, w⟩ := p
        have hfk : findKeyCI m key = some a := by
          unfold findKeyCI
          rw [hf]
        rw [hfk] at h
        simp only [Option.getD_some] at h
        have hgw : dictGet m a = some w := dictGet_of_find_ci m key a w hf
        rw [hgw] at h
        cases w with
        | vdict s =>
            have h3 : some (dictSet m a (Value.vdict (mergeForceLoop s sub)))
                = some m2 := h
            have hm2 : m2 = dictSet m a (Value.vdict (mergeForceLoop s sub)) :=
              (Option.some.inj h3).symm
            have hf2 := find_ci_dictSet_self m key a (Value.vdict s)
              (Value.vdict (mergeForceLoop s sub)) hf
            show (match m2.find? (fun p => strLower p.1 = strLower key) with
              | some p =>
                  match p.2 with
                  | Value.vdict s2 => sub.all (fun q => keyExistsCI s2 q.1)
                  | _ => false
              | none => false) = true
            rw [hm2, hf2]
            show sub.all (fun q => keyExistsCI (mergeForceLoop s sub) q.1) = true
            rw [List.all_eq_true]
            intro q hq
            exact mergeForceLoop_all_ci sub s q hq
        | vstr s =>
            have h3 : (none : Option Dict) = some m2 := h
            cases h3
        | vint n =>
            have h3 : (none : Option Dict) = some m2 := h
            cases h3
        | vbool b =>
            have h3 : (none : Option Dict) = some m2 := h
            cases h3
        | vnull =>
            have h3 : (none : Option Dict) = some m2 := h
            cases h3
  · rw [if_neg hci] at h
    have hci2 : keyExistsCI m key = false := by simpa using hci
    rw [dictSet_append_of_ci_absent m key (Value.vdict []) hci2] at h
    have hfm : m.find? (fun p => strLower p.1 = strLower key) = none := by
      have hiso := keyExistsCI_eq_find? m key
      rw [hci2] at hiso
      cases hf : m.find? (fun p => strLower p.1 = strLower key) with
      | none => rfl
      | some p => rw [hf] at hiso; cases hiso
    have hf : (m ++ [(strLower key, Value.vdict [])]).find?
        (fun p => strLower p.1 = strLower key)
        = some (strLower key, Value.vdict []) := by
      rw [List.find?_append, hfm]
      simp [strLower_idem]
    have hfk : findKeyCI (m ++ [(strLower key, Value.vdict [])]) key
        = some (strLower key) := by
      unfold findKeyCI
      rw [hf]
    rw [hfk] at h
    simp only [Option.getD_some] at h
    have hget2 : dictGet (m ++ [(strLower key, Value.vdict [])]) (strLower key)
        = some (Value.vdict []) :=
      dictGet_append_fresh m (strLower key) (Value.vdict [])
        (dictGet_strLower_none_of_ci_absent m key hci2)
    rw [hget2] at h
    have h3 : some (dictSet (m ++ [(strLower key, Value.vdict [])]) (strLower key)
        (Value.vdict (mergeForceLoop [] sub))) = some m2 := h
    have hm2 := (Option.some.inj h3).symm
    have hf2 := find_ci_dictSet_self (m ++ [(strLower key, Value.vdict [])]) key
      (strLower key) (Value.vdict []) (Value.vdict (mergeForceLoop [] sub)) hf
    show (match m2.find? (fun p => strLower p.1 = strLower key) with
      | some p =>
          match p.2 with
          | Value.vdict s2 => sub.all (fun q => keyExistsCI s2 q.1)
          | _ => false
      | none => false) = true
    rw [hm2, hf2]
    show sub.all (fun q => keyExistsCI (mergeForceLoop [] sub) q.1) = true
    rw [List.all_eq_true]
    intro q hq
    exact mergeForceLoop_all_ci sub [] q hq

/-- A successful scalar merge step saturates the `general` bucket for its
key. -/
theorem mergeTopEntry_done_general (m : Dict) (key : String) (value : Value)
    (m2 : Dict) (hnd : ∀ sub, ¬ value = Value.vdict sub)
    (h : mergeTopEntry m key value = some m2) :
    (match dictGet m2 "general" with
      | some (.vdict g) => keyExistsCI g key
      | _ => false) = true := by
  rw [mergeTopEntry_scalar_eq m key value hnd] at h
  by_cases hgen : (dictGet m "general").isSome
  · simp only [if_pos hgen] at h
    cases hget : dictGet m "general" with
    | none => rw [hget] at h; cases h
    | some w =>
        rw [hget] at h
        cases w with
        | vdict g =>
            have h3 : some (if keyExistsCI g key then m
                else dictSet m "general"
                  (Value.vdict (dictSet g (strLower key) value))) = some m2 := h
            by_cases hkg : keyExistsCI g key
            · rw [if_pos hkg] at h3
              have hm2 : m2 = m := (Option.some.inj h3).symm
              rw [hm2, hget]
              exact hkg
            · rw [if_neg hkg] at h3
              have hm2 : m2 = dictSet m "general"
                  (Value.vdict (dictSet g (strLower key) value)) :=
                (Option.some.inj h3).symm
              rw [hm2, dictGet_dictSet_self]
              exact keyExistsCI_dictSet_lower g key value
        | vstr s => cases h
        | vint n => cases h
        | vbool b => cases h
        | vnull => cases h
  · have hnone : dictGet m "general" = none := by
      cases hg2 : dictGet m "general" with
      | none => rfl
      | some w => rw [hg2] at hgen; simp at hgen
    simp only [if_neg hgen] at h
    rw [dictSet_append_of_absent m "general" (Value.vdict []) hnone] at h
    rw [dictGet_append_fresh m "general" (Value.vdict []) hnone] at h
    have h3 : some (dictSet (m ++ [("general", Value.vdict [])]) "general"
        (Value.vdict (dictSet [] (strLower key) value))) = some m2 := h
    have hm2 := (Option.some.inj h3).symm
    rw [hm2, dictGet_dictSet_self]
    exact keyExistsCI_dictSet_lower [] key value

/-- A successful merge step saturates its own defaults entry. -/
theorem mergeTopEntry_done (m : Dict) (key : String) (value : Value) (m2 : Dict)
    (h : mergeTopEntry m key value = some m2) : entryDone m2 key value = true := by
  cases value with
  | vdict sub => exact mergeTopEntry_done_dict m key sub m2 h
  | vstr s =>
      exact mergeTopEntry_done_general m key (Value.vstr s) m2
        (fun sub hs => Value.noConfusion hs) h
  | vint n =>
      exact mergeTopEntry_done_general m key (Value.vint n) m2
        (fun sub hs => Value.noConfusion hs) h
  | vbool b =>
      exact mergeTopEntry_done_general m key (Value.vbool b) m2
        (fun sub hs => Value.noConfusion hs) h
  | vnull =>
      exact mergeTopEntry_done_general m key Value.vnull m2
        (fun sub hs => Value.noConfusion hs) h

/-- Saturation of an entry survives the rest of the merge loop. -/
theorem mergeTopLoop_preserves_done (D : Dict) : ∀ (m M : Dict) (k : String)
    (v : Value), entryDone m k v = true → mergeTopLoop m D = some M →
    entryDone M k v = true := by
  induction D with
  | nil =>
      intro m M k v hd h
      have h2 : some m = some M := h
      rw [← Option.some.inj h2]
      exact hd
  | cons q rest ih =>
      intro m M k v hd h
      obtain ⟨qk, qv⟩ := q
      have h2 : (match mergeTopEntry m qk qv with
        | some m1 => mergeTopLoop m1 rest
        | none => none) = some M := h
      cases hstep : mergeTopEntry m qk qv with
      | none => rw [hstep] at h2; cases h2
      | some m1 =>
          rw [hstep] at h2
          exact ih m1 M k v (entryDone_step m k v qk qv m1 hd hstep) h2

/-- After the merge loop every defaults entry is saturated. -/
theorem mergeTopLoop_all_done (D : Dict) : ∀ (m M : Dict),
    mergeTopLoop m D = some M → ∀ q ∈ D, entryDone M q.1 q.2 = true := by
  induction D with
  | nil => intro m M _ q hq; cases hq
  | cons q0 rest ih =>
      intro m M h q hq
      obtain ⟨qk, qv⟩ := q0
      have h2 : (match mergeTopEntry m qk qv with
        | some m1 => mergeTopLoop m1 rest
        | none => none) = some M := h
      cases hstep : mergeTopEntry m qk qv with
      | none => rw [hstep] at h2; cases h2
      | some m1 =>
          rw [hstep] at h2
          rcases List.mem_cons.mp hq with heq | hq2
          · rw [heq]
            exact mergeTopLoop_preserves_done rest m1 M qk qv
              (mergeTopEntry_done m qk qv m1 hstep) h2
          · exact ih m1 M h2 q hq2


/-- Replacement writes keep each entry's key. -/
theorem fst_set_entry (p : String × Value) (b : String) (v : Value) :
    (if p.1 = b then (p.1, v) else p).1 = p.1 := by
  by_cases hp : p.1 = b
  · rw [if_pos hp]
  · rw [if_neg hp]

/-- A replacement write leaves the key-membership scan unchanged. -/
theorem any_map_set (m : Dict) (b y : String) (v : Value) :
    (m.map (fun p => if p.1 = b then (p.1, v) else p)).any (fun q => q.1 = y)
      = m.any (fun q => q.1 = y) := by
  induction m with
  | nil => rfl
  | cons p rest ih =>
      simp only [List.map_cons, List.any_cons, fst_set_entry, ih]

/-- Key distinctness is preserved by a replacement write. -/
theorem keysNodupB_map_set (m : Dict) (b : String) (v : Value)
    (hnd : keysNodupB m = true) :
    keysNodupB (m.map (fun p => if p.1 = b then (p.1, v) else p)) = true := by
  induction m with
  | nil => rfl
  | cons p rest ih =>
      simp only [keysNodupB, Bool.and_eq_true, decide_eq_true_eq] at hnd
      simp only [List.map_cons, keysNodupB, Bool.and_eq_true, decide_eq_true_eq,
        fst_set_entry, any_map_set]
      exact ⟨hnd.1, ih hnd.2⟩

/-- Key distinctness is preserved by appending an exactly-new key. -/
theorem keysNodupB_append (m : Dict) (x : String) (v : Value)
    (hnd : keysNodupB m = true) (hx : m.any (fun p => p.1 = x) = false) :
    keysNodupB (m ++ [(x, v)]) = true := by
  induction m with
  | nil => rfl
  | cons p rest ih =>
      rw [List.any_cons, Bool.or_eq_false_iff] at hx
      rw [List.cons_append]
      simp only [keysNodupB, Bool.and_eq_true, decide_eq_true_eq] at hnd ⊢
      refine ⟨?_, ih hnd.2 hx.2⟩
      rw [List.any_append]
      intro hor
      rw [Bool.or_eq_true] at hor
      rcases hor with h1 | h2
      · exact hnd.1 h1
      · rw [List.any_cons] at h2
        simp only [List.any_nil, Bool.or_false, decide_eq_true_eq] at h2
        exact (decide_eq_false_iff_not.mp hx.1) h2.symm

/-- Key distinctness is preserved by any dict write. -/
theorem keysNodupB_dictSet (m : Dict) (b : String) (v : Value)
    (hnd : keysNodupB m = true) : keysNodupB (dictSet m b v) = true := by
  unfold dictSet
  by_cases hb : m.any (fun p => p.1 = b)
  · rw [if_pos hb]
    exact keysNodupB_map_set m b v hnd
  · rw [if_neg hb]
    exact keysNodupB_append m b v hnd (Bool.eq_false_iff.mpr hb)

/-- Key distinctness is preserved by one merge step. -/
theorem keysNodupB_step (m : Dict) (key : String) (value : Value) (m2 : Dict)
    (hnd : keysNodupB m = true) (h : mergeTopEntry m key value = some m2) :
    keysNodupB m2 = true := by
  obtain ⟨base, hbase, hop⟩ := mergeTopEntry_shape m key value m2 h
  have hb : keysNodupB base = true := by
    rcases hbase with heq | ⟨_, hci, heq⟩ | ⟨_, hnone, heq⟩
    · rw [heq]; exact hnd
    · rw [heq]
      exact keysNodupB_append m (strLower key) _ hnd
        (dictGet_none_any m (strLower key)
          (dictGet_strLower_none_of_ci_absent m key hci))
    · rw [heq]
      exact keysNodupB_append m "general" _ hnd (dictGet_none_any m "general" hnone)
  rcases hop with heq | ⟨b, s1, ext, _, _, heq⟩
  · rw [heq]; exact hb
  · rw [heq]
    exact keysNodupB_dictSet base b _ hb

/-- Key distinctness is preserved by the whole merge loop. -/
theorem keysNodupB_loop (D : Dict) : ∀ (m M : Dict), keysNodupB m = true →
    mergeTopLoop m D = some M → keysNodupB M = true := by
  induction D with
  | nil =>
      intro m M hnd h
      have h2 : some m = some M := h
      rw [← Option.some.inj h2]
      exact hnd
  | cons q rest ih =>
      intro m M hnd h
      obtain ⟨qk, qv⟩ := q
      have h2 : (match mergeTopEntry m qk qv with
        | some m1 => mergeTopLoop m1 rest
        | none => none) = some M := h
      cases hstep : mergeTopEntry m qk qv with
      | none => rw [hstep] at h2; cases h2
      | some m1 =>
          rw [hstep] at h2
          exact ih m1 M (keysNodupB_step m qk qv m1 hnd hstep) h2

/-- On a tree whose `general` bucket already holds the key, a scalar merge
step is the identity. -/
theorem mergeTopEntry_id_general (m : Dict) (key : String) (value : Value)
    (hnd2 : ∀ sub, ¬ value = Value.vdict sub)
    (hdone : (match dictGet m "general" with
      | some (.vdict g) => keyExistsCI g key
      | _ => false) = true) :
    mergeTopEntry m key value = some m := by
  rw [mergeTopEntry_scalar_eq m key value hnd2]
  cases hget : dictGet m "general" with
  | none => rw [hget] at hdone; cases hdone
  | some w =>
      rw [hget] at hdone
      cases w with
      | vdict g =>
          have hkg : keyExistsCI g key = true := hdone
          show (match dictGet m "general" with
            | some (Value.vdict g1) =>
                some (if keyExistsCI g1 key then m
                  else dictSet m "general"
                    (Value.vdict (dictSet g1 (strLower key) value)))
            | _ => none) = some m
          rw [hget]
          show some (if keyExistsCI g key then m
            else dictSet m "general"
              (Value.vdict (dictSet g (strLower key) value))) = some m
          rw [if_pos hkg]
      | vstr s => cases hdone
      | vint n => cases hdone
      | vbool b => cases hdone
      | vnull => cases hdone

/-- On a saturated entry over distinct keys, a merge step is the identity. -/
theorem mergeTopEntry_id (m : Dict) (key : String) (value : Value)
    (hnd : keysNodupB m = true) (hdone : entryDone m key value = true) :
    mergeTopEntry m key value = some m := by
  cases value with
  | vdict sub =>
      have h2 : (match m.find? (fun p => strLower p.1 = strLower key) with
        | some p =>
            match p.2 with
            | Value.vdict s2 => sub.all (fun q => keyExistsCI s2 q.1)
            | _ => false
        | none => false) = true := hdone
      cases hf : m.find? (fun p => strLower p.1 = strLower key) with
      | none => rw [hf] at h2; cases h2
      | some p =>
          obtain ⟨a, w⟩ := p
          rw [hf] at h2
          have hci : keyExistsCI m key = true := by
            rw [keyExistsCI_eq_find?, hf]
            rfl
          have hgw : dictGet m a = some w := dictGet_of_find_ci m key a w hf
          cases w with
          | vdict s =>
              have hall : sub.all (fun q => keyExistsCI s q.1) = true := h2
              have hs : ∀ q ∈ sub, keyExistsCI s q.1 = true := by
                rw [List.all_eq_true] at hall
                exact fun q hq => hall q hq
              show mergeTopEntry m key (Value.vdict sub) = some m
              simp only [mergeTopEntry]
              rw [if_pos hci]
              have hfk : findKeyCI m key = some a := by
                unfold findKeyCI
                rw [hf]
              rw [hfk]
              simp only [Option.getD_some]
              rw [hgw]
              show some (dictSet m a (Value.vdict (mergeForceLoop s sub))) = some m
              rw [mergeForceLoop_id sub s hs, dictSet_id m a (Value.vdict s) hnd hgw]
          | vstr s => cases h2
          | vint n => cases h2
          | vbool b => cases h2
          | vnull => cases h2
  | vstr s =>
      exact mergeTopEntry_id_general m key (Value.vstr s)
        (fun sub hs => Value.noConfusion hs) hdone
  | vint n =>
      exact mergeTopEntry_id_general m key (Value.vint n)
        (fun sub hs => Value.noConfusion hs) hdone
  | vbool b =>
      exact mergeTopEntry_id_general m key (Value.vbool b)
        (fun sub hs => Value.noConfusion hs) hdone
  | vnull =>
      exact mergeTopEntry_id_general m key Value.vnull
        (fun sub hs => Value.noConfusion hs) hdone

/-- On a tree with distinct keys whose defaults are all saturated, the
merge loop is the identity. -/
theorem mergeTopLoop_id (D : Dict) : ∀ m : Dict, keysNodupB m = true →
    (∀ q ∈ D, entryDone m q.1 q.2 = true) → mergeTopLoop m D = some m := by
  induction D with
  | nil => intro m _ _; rfl
  | cons q0 rest ih =>
      intro m hnd hall
      obtain ⟨qk, qv⟩ := q0
      show (match mergeTopEntry m qk qv with
        | some m1 => mergeTopLoop m1 rest
        | none => none) = some m
      rw [mergeTopEntry_id m qk qv hnd (hall (qk, qv) (List.mem_cons_self _ _))]
      exact ih m hnd (fun q hq => hall q (List.mem_cons_of_mem _ hq))


/-- C2: for every existing tree `E` (with the pairwise-distinct top-level
keys every Python dict has) and defaults `D`, if merging `D` into `E` with
`force_add=False` succeeds with tree `M`, then merging `D` into `M` again
succeeds and returns `M` unchanged: `_merge_defaults_with_existing` is
idempotent, creating no duplicate or renamed keys on the second
application. -/
theorem c2_idempotent (E D M : Dict) (hnd : keysNodupB E = true)
    (h : merge_defaults_with_existing E D false = some M) :
    merge_defaults_with_existing M D false = some M := by
  have h1 : mergeTopLoop E D = some M := h
  have hndM : keysNodupB M = true := keysNodupB_loop D E M hnd h1
  have hall : ∀ q ∈ D, entryDone M q.1 q.2 = true := mergeTopLoop_all_done D E M h1
  show mergeTopLoop M D = some M
  exact mergeTopLoop_id D M hndM hall

theorem c2_idempotent_witness :
    keysNodupB [("Server", Value.vdict [("Port", Value.vint 9090)])] = true ∧
    merge_defaults_with_existing
        [("Server", Value.vdict [("Port", Value.vint 9090)])]
        [("server", Value.vdict [("port", Value.vint 8080),
            ("host", Value.vstr "local")]),
         ("timeout", Value.vint 30)] false
      = some [("Server", Value.vdict [("Port", Value.vint 9090),
            ("host", Value.vstr "local")]),
          ("general", Value.vdict [("timeout", Value.vint 30)])] ∧
    merge_defaults_with_existing
        [("Server", Value.vdict [("Port", Value.vint 9090),
            ("host", Value.vstr "local")]),
         ("general", Value.vdict [("timeout", Value.vint 30)])]
        [("server", Value.vdict [("port", Value.vint 8080),
            ("host", Value.vstr "local")]),
         ("timeout", Value.vint 30)] false
      = some [("Server", Value.vdict [("Port", Value.vint 9090),
            ("host", Value.vstr "local")]),
          ("general", Value.vdict [("timeout", Value.vint 30)])] :=
  ⟨rfl, rfl,
    c2_idempotent
      [("Server", Value.vdict [("Port", Value.vint 9090)])]
      [("server", Value.vdict [("port", Value.vint 8080),
          ("host", Value.vstr "local")]),
       ("timeout", Value.vint 30)]
      [("Server", Value.vdict [("Port", Value.vint 9090),
          ("host", Value.vstr "local")]),
       ("general", Value.vdict [("timeout", Value.vint 30)])] rfl rfl⟩


/-- Every entry's key reads back as something. -/
theorem dictGet_isSome_of_mem (d : Dict) (p : String × Value) (hp : p ∈ d) :
    ∃ v0, dictGet d p.1 = some v0 := by
  cases hg : dictGet d p.1 with
  | some w => exact ⟨w, rfl⟩
  | none =>
      exfalso
      have hany := dictGet_none_any d p.1 hg
      rw [List.any_eq_false] at hany
      exact hany p hp (by simp)

/-- A successful exact read names the key of some entry. -/
theorem exists_mem_of_dictGet_some (d : Dict) (x : String) (w : Value)
    (h : dictGet d x = some w) : ∃ q ∈ d, q.1 = x := by
  have hany := dictGet_isSome_any d x (by rw [h]; rfl)
  rw [List.any_eq_true] at hany
  obtain ⟨q, hq, hqx⟩ := hany
  exact ⟨q, hq, by simpa using hqx⟩

/-- Keys of a written dict: each entry has the key of an input entry, or
the written key. -/
theorem mem_dictSet_fst (d : Dict) (b : String) (v : Value) (p : String × Value)
    (hp : p ∈ dictSet d b v) : (∃ q ∈ d, p.1 = q.1) ∨ p.1 = b := by
  unfold dictSet at hp
  by_cases hb : d.any (fun q => q.1 = b)
  · rw [if_pos hb] at hp
    rw [List.mem_map] at hp
    obtain ⟨q, hq, hfq⟩ := hp
    left
    refine ⟨q, hq, ?_⟩
    rw [← hfq, fst_set_entry]
  · rw [if_neg hb] at hp
    rcases List.mem_append.mp hp with h1 | h2
    · left; exact ⟨p, h1, rfl⟩
    · right
      have heq := List.mem_singleton.mp h2
      rw [heq]

/-- A tree preserves its own top level. -/
theorem preservesTop_refl (E : Dict) : preservesTop E E := by
  intro k0 v0 hget
  constructor
  · intro _; exact hget
  · intro s0 hv0
    refine ⟨[], ?_, ?_⟩
    · rw [List.append_nil, ← hv0]; exact hget
    · intro p hp; cases hp

/-- Top-level preservation survives appending a fresh entry. -/
theorem preservesTop_append (E m : Dict) (x : String) (v : Value)
    (hp : preservesTop E m) : preservesTop E (m ++ [(x, v)]) := by
  intro k0 v0 hget
  obtain ⟨h1, h2⟩ := hp k0 v0 hget
  constructor
  · intro hsc
    exact dictGet_append_left m [(x, v)] k0 v0 (h1 hsc)
  · intro s0 hv0
    obtain ⟨ext, he, hext⟩ := h2 s0 hv0
    exact ⟨ext, dictGet_append_left m [(x, v)] k0 _ he, hext⟩

/-- Top-level preservation survives extending a dict-valued entry in place
with lower-cased, case-insensitively new entries. -/
theorem preservesTop_extend (E m : Dict) (b : String) (s1 ext2 : Dict)
    (hp : preservesTop E m) (hget : dictGet m b = some (Value.vdict s1))
    (hext2 : ∀ p ∈ ext2, p.1 = strLower p.1 ∧ keyExistsCI s1 p.1 = false) :
    preservesTop E (dictSet m b (Value.vdict (s1 ++ ext2))) := by
  intro k0 v0 hget0
  obtain ⟨h1, h2⟩ := hp k0 v0 hget0
  by_cases hkb : k0 = b
  · subst hkb
    constructor
    · intro hsc
      exfalso
      have he := h1 hsc
      rw [hget] at he
      exact hsc s1 (Option.some.inj he).symm
    · intro s0 hv0
      obtain ⟨ext1, he, hext1⟩ := h2 s0 hv0
      rw [hget] at he
      have hs1 : s1 = s0 ++ ext1 := Value.vdict.inj (Option.some.inj he)
      refine ⟨ext1 ++ ext2, ?_, ?_⟩
      · rw [dictGet_dictSet_self, hs1, List.append_assoc]
      · intro p hp2
        rcases List.mem_append.mp hp2 with hp1 | hp2b
        · exact hext1 p hp1
        · obtain ⟨hl, hci⟩ := hext2 p hp2b
          refine ⟨hl, ?_⟩
          rw [hs1, keyExistsCI_append] at hci
          rw [Bool.or_eq_false_iff] at hci
          exact hci.1
  · constructor
    · intro hsc
      rw [dictGet_dictSet_ne m b k0 _ hkb]
      exact h1 hsc
    · intro s0 hv0
      obtain ⟨ext1, he, hext1⟩ := h2 s0 hv0
      refine ⟨ext1, ?_, hext1⟩
      rw [dictGet_dictSet_ne m b k0 _ hkb]
      exact he

/-- Top-level preservation survives one merge step. -/
theorem preservesTop_step (E m : Dict) (key : String) (value : Value) (m2 : Dict)
    (hp : preservesTop E m) (h : mergeTopEntry m key value = some m2) :
    preservesTop E m2 := by
  obtain ⟨base, hbase, hop⟩ := mergeTopEntry_shape m key value m2 h
  have hb : preservesTop E base := by
    rcases hbase with heq | ⟨_, _, heq⟩ | ⟨_, _, heq⟩
    · rw [heq]; exact hp
    · rw [heq]; exact preservesTop_append E m _ _ hp
    · rw [heq]; exact preservesTop_append E m _ _ hp
  rcases hop with heq | ⟨b, s1, ext, hget, hext, heq⟩
  · rw [heq]; exact hb
  · rw [heq]; exact preservesTop_extend E base b s1 ext hb hget hext

/-- Case-insensitive keys survive appending an entry. -/
theorem ciSub_append (E m : Dict) (x : String) (v : Value) (hc : ciSub E m) :
    ciSub E (m ++ [(x, v)]) := by
  intro k hk
  rw [keyExistsCI_append, hc k hk]
  rfl

/-- Case-insensitive keys survive one merge step. -/
theorem ciSub_step (E m : Dict) (key : String) (value : Value) (m2 : Dict)
    (hc : ciSub E m) (h : mergeTopEntry m key value = some m2) : ciSub E m2 := by
  obtain ⟨base, hbase, hop⟩ := mergeTopEntry_shape m key value m2 h
  have hb : ciSub E base := by
    rcases hbase with heq | ⟨_, _, heq⟩ | ⟨_, _, heq⟩
    · rw [heq]; exact hc
    · rw [heq]; exact ciSub_append E m _ _ hc
    · rw [heq]; exact ciSub_append E m _ _ hc
  rcases hop with heq | ⟨b, s1, ext, hget, _, heq⟩
  · rw [heq]; exact hb
  · rw [heq]
    intro k hk
    exact keyExistsCI_dictSet_mono base k b _ (hb k hk)

/-- A tree's own keys all read back from it. -/
theorem keysFrom_init (E D : Dict) : keysFrom E D E := by
  intro p hp
  left
  exact dictGet_isSome_of_mem E p hp

/-- Key provenance survives one merge step on a defaults entry. -/
theorem keysFrom_step (E D m : Dict) (key : String) (value : Value) (m2 : Dict)
    (hqD : (key, value) ∈ D) (hc : ciSub E m) (hk : keysFrom E D m)
    (h : mergeTopEntry m key value = some m2) : keysFrom E D m2 := by
  obtain ⟨base, hbase, hop⟩ := mergeTopEntry_shape m key value m2 h
  have hkb : keysFrom E D base := by
    rcases hbase with heq | ⟨⟨sub, hvsub⟩, hci, heq⟩ | ⟨_, _, heq⟩
    · rw [heq]; exact hk
    · rw [heq]
      intro p hp
      rcases List.mem_append.mp hp with hp1 | hp2
      · exact hk p hp1
      · have heq2 := List.mem_singleton.mp hp2
        right; right
        refine ⟨(key, value), hqD, ⟨sub, hvsub⟩, ?_, ?_⟩
        · rw [heq2]
        · cases hE : keyExistsCI E key with
          | false => rfl
          | true =>
              have hcm := hc key hE
              rw [hci] at hcm
              cases hcm
    · rw [heq]
      intro p hp
      rcases List.mem_append.mp hp with hp1 | hp2
      · exact hk p hp1
      · have heq2 := List.mem_singleton.mp hp2
        right; left
        rw [heq2]
  rcases hop with heq | ⟨b, s1, ext, hget, _, heq⟩
  · rw [heq]; exact hkb
  · rw [heq]
    intro p hp
    rcases mem_dictSet_fst base b _ p hp with ⟨q, hq, hpq⟩ | hpb
    · rcases hkb q hq with h1 | h2 | h3
      · left; rw [hpq]; exact h1
      · right; left; rw [hpq]; exact h2
      · right; right
        obtain ⟨q2, hq2, hs, hl, hcif⟩ := h3
        exact ⟨q2, hq2, hs, by rw [hpq]; exact hl, hcif⟩
    · obtain ⟨q, hq, hqb⟩ := exists_mem_of_dictGet_some base b _ hget
      rcases hkb q hq with h1 | h2 | h3
      · left; rw [hpb, ← hqb]; exact h1
      · right; left; rw [hpb, ← hqb]; exact h2
      · right; right
        obtain ⟨q2, hq2, hs, hl, hcif⟩ := h3
        exact ⟨q2, hq2, hs, by rw [hpb, ← hqb]; exact hl, hcif⟩

/-- The three merge invariants hold after the merge loop. -/
theorem merge_invariants_loop (E D : Dict) : ∀ D2 : List (String × Value),
    (∀ q ∈ D2, q ∈ D) → ∀ m M : Dict,
    preservesTop E m → ciSub E m → keysFrom E D m →
    mergeTopLoop m D2 = some M →
    preservesTop E M ∧ ciSub E M ∧ keysFrom E D M := by
  intro D2
  induction D2 with
  | nil =>
      intro _ m M hp hc hk h
      have h2 : some m = some M := h
      rw [← Option.some.inj h2]
      exact ⟨hp, hc, hk⟩
  | cons q rest ih =>
      intro hsub m M hp hc hk h
      obtain ⟨qk, qv⟩ := q
      have h2 : (match mergeTopEntry m qk qv with
        | some m1 => mergeTopLoop m1 rest
        | none => none) = some M := h
      cases hstep : mergeTopEntry m qk qv with
      | none => rw [hstep] at h2; cases h2
      | some m1 =>
          rw [hstep] at h2
          exact ih (fun q hq => hsub q (List.mem_cons_of_mem _ hq)) m1 M
            (preservesTop_step E m qk qv m1 hp hstep)
            (ciSub_step E m qk qv m1 hc hstep)
            (keysFrom_step E D m qk qv m1
              (hsub (qk, qv) (List.mem_cons_self _ _)) hc hk hstep)
            h2


/-- C1 is refuted as stated: `_merge_defaults_with_existing` does not
lower-case every key it adds, and the exact `'general' not in merged` test
duplicates an existing `General` section.  First conjunct: merging the
defaults section `S` (added lower-cased as `s`) copies its nested value
wholesale, so the added key `U` below `T` is stored as `U`, not `u`.
Second conjunct: with an existing `General` section already holding `x`, a
scalar default `x` creates a second section `general` and stores `x`
there, duplicating the value instead of adding only keys with no
case-insensitive match. -/
theorem c1_counterexample :
    merge_defaults_with_existing []
        [("S", Value.vdict [("T", Value.vdict [("U", Value.vint 1)])])] false
      = some [("s", Value.vdict [("t", Value.vdict [("U", Value.vint 1)])])] ∧
    merge_defaults_with_existing [("General", Value.vdict [("x", Value.vint 5)])]
        [("x", Value.vint 9)] false
      = some [("General", Value.vdict [("x", Value.vint 5)]),
              ("general", Value.vdict [("x", Value.vint 9)])] := ⟨rfl, rfl⟩

/-- C1 (amended): whenever the merge succeeds, it never overwrites or
renames an existing value: each top-level scalar of `E` survives verbatim
and each top-level mapping of `E` is only extended by appended entries
whose keys are lower-cased and had no case-insensitive match in that
mapping (`preservesTop`); every case-insensitive key of `E` survives
(`ciSub`); every top-level key of the result is a key of `E`, the literal
`general`, or the lower-casing of a dict-valued defaults key with no
case-insensitive match in `E` (`keysFrom`); and every defaults entry ends
up case-insensitively present: a dict default under a case-insensitive
section match holding all its keys, a scalar default inside the exact
`general` section (`entryDone`).  Keys nested two levels deep in an added
section are copied verbatim rather than lower-cased, and the `general`
bucket test is exact, as the counterexample records. -/
theorem c1_amended (E D M : Dict)
    (h : merge_defaults_with_existing E D false = some M) :
    preservesTop E M ∧ ciSub E M ∧ keysFrom E D M ∧
    ∀ q ∈ D, entryDone M q.1 q.2 = true := by
  have h1 : mergeTopLoop E D = some M := h
  obtain ⟨hp, hc, hk⟩ := merge_invariants_loop E D D (fun q hq => hq) E M
    (preservesTop_refl E) (fun k hk2 => hk2) (keysFrom_init E D) h1
  exact ⟨hp, hc, hk, mergeTopLoop_all_done D E M h1⟩

theorem c1_amended_witness :
    preservesTop [("server", Value.vdict [("port", Value.vint 9090)])]
      [("server", Value.vdict [("port", Value.vint 9090),
        ("host", Value.vstr "local")])] ∧
    ciSub [("server", Value.vdict [("port", Value.vint 9090)])]
      [("server", Value.vdict [("port", Value.vint 9090),
        ("host", Value.vstr "local")])] ∧
    keysFrom [("server", Value.vdict [("port", Value.vint 9090)])]
      [("server", Value.vdict [("port", Value.vint 8080),
        ("host", Value.vstr "local")])]
      [("server", Value.vdict [("port", Value.vint 9090),
        ("host", Value.vstr "local")])] ∧
    ∀ q ∈ [("server", Value.vdict [("port", Value.vint 8080),
        ("host", Value.vstr "local")])],
      entryDone [("server", Value.vdict [("port", Value.vint 9090),
        ("host", Value.vstr "local")])] q.1 q.2 = true :=
  c1_amended [("server", Value.vdict [("port", Value.vint 9090)])]
    [("server", Value.vdict [("port", Value.vint 8080),
      ("host", Value.vstr "local")])]
    [("server", Value.vdict [("port", Value.vint 9090),
      ("host", Value.vstr "local")])] rfl

end CfgMgr
